import Mathlib

/-!
# james-openapi-schema: the fidelity check and the merge of `main.go`

A shallow embedding of `src/main.go`: the typed model (`APISchema` and its parts), the
serialisation that the struct tags determine, `checkParsing`, `combine` and `main`.

Modelling conventions.

* A Go `map[string]V` is `GoMap V`: `none` is the nil map, `some l` lists the entries in the
  order in which the single `range` loop over that map visits them.  Go leaves that order
  unspecified, so every theorem quantifies over all lists; the keys of a map are distinct,
  which `Fragment.WellFormed` records.
* A `json.RawMessage` is `Option Json`: `none` is the nil slice, `some j` holds raw text that
  denotes the tree `j`.
* What the libraries compute from a file's bytes (`os.ReadFile`, `yaml.YAMLToJSON`,
  `yaml.Unmarshal`) is carried by the directory entry (`DirEntry`); these parsers are not part
  of the repository.
-/

namespace JamesOpenapi

/-! ## Untyped document trees -/

/-- Decoded JSON value, as `json.Unmarshal` into `interface{}` yields it; a number is
represented by an integer and compared by value. -/
inductive Json where
  | null
  | bool (b : Bool)
  | num (n : Int)
  | str (s : String)
  | arr (xs : List Json)
  | obj (kvs : List (String × Json))

/-! ## Go maps -/

/-- Go map with string keys: `none` is nil, `some l` the entries in iteration order. -/
abbrev GoMap (V : Type) := Option (List (String × V))

/-- Entries visited by `for k, v := range m`; a nil map yields none. -/
def GoMap.range {V : Type} : GoMap V → List (String × V)
  | none => []
  | some l => l

/-- Lookup `m[k]` with the comma-ok result folded into the option. -/
def mapGet {V : Type} : List (String × V) → String → Option V
  | [], _ => none
  | (k', v) :: rest, k => if k' = k then some v else mapGet rest k

/-- Assignment `m[k] = v`: replaces the value of an existing key, otherwise adds the key. -/
def mapSet {V : Type} : List (String × V) → String → V → List (String × V)
  | [], k, v => [(k, v)]
  | (k', v') :: rest, k, v => if k' = k then (k, v) :: rest else (k', v') :: mapSet rest k v

/-- Keys of a map. -/
def keys {V : Type} (l : List (String × V)) : List String := l.map Prod.fst

/-! ## The typed model (`main.go` lines 16-41) -/

/-- Raw JSON text kept uninterpreted; `none` is the nil slice. -/
abbrev RawMessage := Option Json

/-- Go struct `Info`. -/
structure Info where
  Title : String
  Version : String

/-- Go struct `APIMethod`. -/
structure APIMethod where
  Summary : String
  OperationId : String
  Tags : List String
  RequestBody : RawMessage
  Parameters : List RawMessage
  Responses : RawMessage

/-- Go type `APIMethods`, a map from method name to operation. -/
abbrev APIMethods := GoMap APIMethod

/-- Go struct `Components`. -/
structure Components where
  Schemas : GoMap RawMessage

/-- Go struct `APISchema`; `Components` is a pointer, `none` is nil. -/
structure APISchema where
  Openapi : String
  Info : Info
  Paths : GoMap APIMethods
  Components : Option Components

/-! ## Directory entries -/

/-- One entry of the input directory together with what the library calls return on it:
`readErr` is the error of `os.ReadFile` if any, `jsonOriginal` the result of
`yaml.YAMLToJSON(data)`, `schema` the result of `yaml.Unmarshal(data, &schema)`. -/
structure DirEntry where
  Name : String
  IsRegular : Bool
  readErr : Option String
  jsonOriginal : Except String Json
  schema : Except String APISchema

/-- Go `filepath.Join(dir, name)` for a clean directory name and an entry name. -/
def filepathJoin (dir name : String) : String := dir ++ "/" ++ name

/-! ## `strings.Cut` -/

/-- Split of a character list around the first occurrence of `sep`, if there is one. -/
def cutChars (sep : List Char) : List Char → Option (List Char × List Char)
  | [] => if sep = [] then some ([], []) else none
  | c :: cs =>
    if sep.isPrefixOf (c :: cs) then some ([], (c :: cs).drop sep.length)
    else match cutChars sep cs with
      | some (before, after) => some (c :: before, after)
      | none => none

/-- Go `strings.Cut(s, sep)`: text before and after the first `sep`, and whether it occurs. -/
def stringsCut (s sep : String) : String × String × Bool :=
  match cutChars sep.data s.data with
  | some (before, after) => (String.mk before, String.mk after, true)
  | none => (s, "", false)

/-! ## `combine` (`main.go` lines 127-186) -/

/-- Body of the inner loop, lines 162-165: the operation with its tag list overwritten when
the entry name contains a dot. -/
def tagOperation (entryName : String) (schema : APIMethod) : APIMethod :=
  match stringsCut entryName "." with
  | (tag, _, found) => if found then { schema with Tags := [tag] } else schema

/-- Inner loop, lines 161-167: `for method, schema := range methods` writing each retagged
operation back under its own key.  The loop body never runs on a nil map. -/
def tagMethods (entryName : String) (methods : APIMethods) : APIMethods :=
  match methods with
  | none => none
  | some l =>
    some (l.foldl (fun ms kv => mapSet ms kv.1 (tagOperation entryName kv.2)) l)

/-- Outer loop, lines 160-171, over the entries of `schema.Paths`: each path of the fragment
is assigned, with its whole method map, into the combined path map. -/
def mergePaths (entryName : String) (paths : List (String × APIMethods))
    (combined : List (String × APIMethods)) : List (String × APIMethods) :=
  paths.foldl (fun acc kv => mapSet acc kv.1 (tagMethods entryName kv.2)) combined

/-- Loop of lines 174-180 over `schema.Components.Schemas`: a name already in the combined
set ends the run with the duplicate error, otherwise the schema is inserted. -/
def mergeSchemas (filename : String) :
    List (String × RawMessage) → List (String × RawMessage) →
      Except String (List (String × RawMessage))
  | [], combined => .ok combined
  | (msg, schema) :: rest, combined =>
    match mapGet combined msg with
    | some _ => .error ("duplicate message " ++ msg ++ " in file " ++ filename)
    | none => mergeSchemas filename rest (mapSet combined msg schema)

/-- The two maps of `combined` that the loop updates. -/
structure Combined where
  Paths : List (String × APIMethods)
  Schemas : List (String × RawMessage)

/-- Loop over the directory entries, lines 144-183. -/
def combineLoop (dir : String) : List DirEntry → Combined → Except String Combined
  | [], combined => .ok combined
  | entry :: rest, combined =>
    if !entry.IsRegular then combineLoop dir rest combined
    else
      let filename := filepathJoin dir entry.Name
      match entry.readErr with
      | some err => .error err
      | none =>
        match entry.schema with
        | .error err => .error err
        | .ok schema =>
          let paths := mergePaths entry.Name schema.Paths.range combined.Paths
          match schema.Components with
          | none => combineLoop dir rest { combined with Paths := paths }
          | some components =>
            match mergeSchemas filename components.Schemas.range combined.Schemas with
            | .error err => .error err
            | .ok schemas => combineLoop dir rest { Paths := paths, Schemas := schemas }

/-- Go `combine(dir)`; `readDir` is the result of `os.ReadDir(dir)`. -/
def combine (dir : String) (readDir : Except String (List DirEntry)) :
    Except String APISchema :=
  match readDir with
  | .error err => .error err
  | .ok entries =>
    match combineLoop dir entries { Paths := [], Schemas := [] } with
    | .error err => .error err
    | .ok combined =>
      .ok { Openapi := "3.0.1"
            Info := { Title := "Apache JAMES Web Admin API", Version := "3.8.0" }
            Paths := some combined.Paths
            Components := some { Schemas := some combined.Schemas } }

/-! ## Serialisation of the typed model (`json.Marshal` under the struct tags) -/

/-- Marshalling of a `json.RawMessage`: the nil slice gives `null`, otherwise the raw text. -/
def marshalRaw : RawMessage → Json
  | none => .null
  | some j => j

/-- Marshalling of `Info`: both fields are always written. -/
def marshalInfo (i : Info) : Json :=
  .obj [("title", .str i.Title), ("version", .str i.Version)]

/-- Marshalling of `APIMethod`: `summary` and `responses` are always written, the four
fields tagged `omitempty` only when they are not empty. -/
def marshalMethod (m : APIMethod) : Json :=
  .obj ([("summary", .str m.Summary)]
    ++ (if m.OperationId = "" then [] else [("operationId", .str m.OperationId)])
    ++ (if m.Tags.isEmpty then [] else [("tags", .arr (m.Tags.map Json.str))])
    ++ (match m.RequestBody with
        | none => []
        | some j => [("requestBody", j)])
    ++ (if m.Parameters.isEmpty then [] else [("parameters", .arr (m.Parameters.map marshalRaw))])
    ++ [("responses", marshalRaw m.Responses)])

/-- Marshalling of `APIMethods`: a nil map gives `null`. -/
def marshalMethods : APIMethods → Json
  | none => .null
  | some l => .obj (l.map fun kv => (kv.1, marshalMethod kv.2))

/-- Marshalling of the `paths` map: a nil map gives `null`. -/
def marshalPaths : GoMap APIMethods → Json
  | none => .null
  | some l => .obj (l.map fun kv => (kv.1, marshalMethods kv.2))

/-- Marshalling of `Components`: `schemas` has no `omitempty`. -/
def marshalComponents (c : Components) : Json :=
  .obj [("schemas",
    match c.Schemas with
    | none => .null
    | some l => .obj (l.map fun kv => (kv.1, marshalRaw kv.2)))]

/-- Go `json.Marshal(schema)` read back as an object: `openapi`, `info` and `paths` are
always written, `components` only for a non-nil pointer.  Marshalling a decoded model cannot
fail, so the error branch of line 98 is not represented. -/
def marshalAPISchema (s : APISchema) : List (String × Json) :=
  [("openapi", .str s.Openapi), ("info", marshalInfo s.Info), ("paths", marshalPaths s.Paths)]
    ++ (match s.Components with
        | none => []
        | some c => [("components", marshalComponents c)])

/-! ## Structural comparison (`gojsondiff`) -/

mutual
/-- Deep equality of two decoded values: objects are compared as maps, arrays by position. -/
def Json.eqv : Json → Json → Bool
  | .null, .null => true
  | .bool a, .bool b => a == b
  | .num a, .num b => a == b
  | .str a, .str b => a == b
  | .arr xs, .arr ys => Json.eqvList xs ys
  | .obj l, .obj r => Json.subObj l r && (keys r).all fun k => (mapGet l k).isSome
  | _, _ => false
/-- Positional equality of two arrays. -/
def Json.eqvList : List Json → List Json → Bool
  | [], [] => true
  | x :: xs, y :: ys => Json.eqv x y && Json.eqvList xs ys
  | _, _ => false
/-- Every entry of the left object has an equal value under the same key on the right. -/
def Json.subObj : List (String × Json) → List (String × Json) → Bool
  | [], _ => true
  | (k, v) :: rest, r =>
    (match mapGet r k with
     | some w => Json.eqv v w
     | none => false) && Json.subObj rest r
end

/-- One top-level difference between the original tree and the serialised model. -/
inductive Delta where
  | deleted (key : String) (value : Json)
  | changed (key : String) (left right : Json)
  | added (key : String) (value : Json)

/-- Differences of `compareMaps` on the top-level objects: a key only on the left is deleted,
a key on both sides with unequal values is changed, a key only on the right is added.  The
library sorts the keys and describes a changed value in more detail; `d.Modified()` only asks
whether the list is empty. -/
def compareObjects (left right : List (String × Json)) : List Delta :=
  left.filterMap (fun kv =>
      match mapGet right kv.1 with
      | some w => if Json.eqv kv.2 w then none else some (Delta.changed kv.1 kv.2 w)
      | none => some (Delta.deleted kv.1 kv.2))
    ++ right.filterMap (fun kv =>
      match mapGet left kv.1 with
      | some _ => none
      | none => some (Delta.added kv.1 kv.2))

/-- Top-level key a difference is reported under. -/
def Delta.key : Delta → String
  | .deleted k _ => k
  | .changed k _ _ => k
  | .added k _ => k

/-- Go `json.Unmarshal(jsonOriginal, &original)` into `map[string]interface{}`: an object is
accepted, `null` leaves the nil map, anything else is an error. -/
def unmarshalObject : Json → Except String (List (String × Json))
  | .obj kvs => .ok kvs
  | .null => .ok []
  | _ => .error "json: cannot unmarshal value into Go value of type map[string]interface {}"

/-! ## `checkParsing` (`main.go` lines 66-125) -/

/-- Result of `checkParsing`: the returned error and the diff printed before it. -/
structure CheckResult where
  err : Option String
  printed : Option (List Delta)

/-- Loop over the directory entries, lines 71-123.  `differ.Compare` decodes the two texts
again, the left one as on line 86 and the right one always an object, and the formatter is
given a map, so the error branches of lines 105 and 117 are not represented; the printed
report is the list of differences. -/
def checkLoop (dir : String) : List DirEntry → CheckResult
  | [] => { err := none, printed := none }
  | entry :: rest =>
    if !entry.IsRegular then checkLoop dir rest
    else
      let filename := filepathJoin dir entry.Name
      match entry.readErr with
      | some err => { err := some err, printed := none }
      | none =>
        match entry.jsonOriginal with
        | .error err => { err := some err, printed := none }
        | .ok jsonOriginal =>
          match unmarshalObject jsonOriginal with
          | .error err => { err := some (filename ++ ": " ++ err), printed := none }
          | .ok original =>
            match entry.schema with
            | .error err => { err := some err, printed := none }
            | .ok schema =>
              let jsonParsed := marshalAPISchema schema
              let d := compareObjects original jsonParsed
              if !d.isEmpty then
                { err := some (filename ++ " schema is not preserved"), printed := some d }
              else checkLoop dir rest

/-- Go `checkParsing(dir)`; `readDir` is the result of `os.ReadDir(dir)`. -/
def checkParsing (dir : String) (readDir : Except String (List DirEntry)) : CheckResult :=
  match readDir with
  | .error err => { err := some err, printed := none }
  | .ok entries => checkLoop dir entries

/-! ## `main` (`main.go` lines 43-64) -/

/-- What a run sees of the outside: the directory listing and the two emitter calls. -/
structure World where
  readDir : Except String (List DirEntry)
  yamlMarshal : APISchema → Except String String
  writeFile : String → String → Option String

/-- Outcome of a run: the panic value if any, the result of `combine` when it was called,
and the `os.WriteFile` calls made. -/
structure Run where
  panic : Option String
  combined : Option (Except String APISchema)
  writes : List (String × String)

/-- Go `main()`. -/
def main (w : World) : Run :=
  let dir := "openapi"
  match (checkParsing dir w.readDir).err with
  | some err => { panic := some err, combined := none, writes := [] }
  | none =>
    match combine dir w.readDir with
    | .error err => { panic := some err, combined := some (.error err), writes := [] }
    | .ok schema =>
      match w.yamlMarshal schema with
      | .error err => { panic := some err, combined := some (.ok schema), writes := [] }
      | .ok data =>
        match w.writeFile "api.yaml" data with
        | some err =>
          { panic := some err, combined := some (.ok schema), writes := [("api.yaml", data)] }
        | none =>
          { panic := none, combined := some (.ok schema), writes := [("api.yaml", data)] }


/-! ## Fragments: the regular entries that load -/

/-- Fragment of the input: the name of a regular file and the typed model parsed from it. -/
structure Fragment where
  Name : String
  schema : APISchema

/-- Path entries of a fragment, as the loop of line 160 visits them. -/
def Fragment.paths (f : Fragment) : List (String × APIMethods) := f.schema.Paths.range

/-- Component schemas of a fragment, as the loop of line 174 visits them (none for a nil
`Components` pointer). -/
def Fragment.schemas (f : Fragment) : List (String × RawMessage) :=
  match f.schema.Components with
  | none => []
  | some c => c.Schemas.range

/-- Paths a fragment defines. -/
def Fragment.pathNames (f : Fragment) : List String := keys f.paths

/-- Component schema names a fragment declares. -/
def Fragment.schemaNames (f : Fragment) : List String := keys f.schemas

/-- Operation a fragment defines under a path and a method, if any. -/
def Fragment.opAt (f : Fragment) (path method : String) : Option APIMethod :=
  match mapGet f.paths path with
  | some (some ms) => mapGet ms method
  | _ => none

/-- Operation of a document under a path and a method, if any. -/
def APISchema.opAt (doc : APISchema) (path method : String) : Option APIMethod :=
  match mapGet doc.Paths.range path with
  | some (some ms) => mapGet ms method
  | _ => none

/-- Method keys a document carries under a path, if the path is present. -/
def APISchema.methodsAt (doc : APISchema) (path : String) : Option (List String) :=
  (mapGet doc.Paths.range path).map fun ms => keys ms.range

/-- Component schema entries of a document. -/
def APISchema.schemaEntries (doc : APISchema) : List (String × RawMessage) :=
  match doc.Components with
  | none => []
  | some c => c.Schemas.range

/-- Every regular entry is read and parsed to a typed model without error. -/
def Loaded (entries : List DirEntry) : Bool :=
  entries.all fun e =>
    !e.IsRegular ||
      (e.readErr.isNone &&
        match e.schema with
        | .ok _ => true
        | .error _ => false)

/-- Fragments of a directory listing, in processing order: the regular entries that load. -/
def fragmentsOf : List DirEntry → List Fragment
  | [] => []
  | e :: rest =>
    if e.IsRegular then
      match e.readErr, e.schema with
      | none, .ok s => { Name := e.Name, schema := s } :: fragmentsOf rest
      | _, _ => fragmentsOf rest
    else fragmentsOf rest

/-- The keys of every map of a typed model are distinct, as in any Go map. -/
def Fragment.WellFormed (f : Fragment) : Prop :=
  f.pathNames.Nodup ∧ (∀ kv ∈ f.paths, (keys kv.2.range).Nodup) ∧ f.schemaNames.Nodup

instance (f : Fragment) : Decidable f.WellFormed := by
  unfold Fragment.WellFormed; exact inferInstance

/-- The loop of `combine` restated over fragments. -/
def combineFrags (dir : String) : List Fragment → Combined → Except String Combined
  | [], combined => .ok combined
  | f :: rest, combined =>
    match mergeSchemas (filepathJoin dir f.Name) f.schemas combined.Schemas with
    | .error err => .error err
    | .ok schemas =>
      combineFrags dir rest
        { Paths := mergePaths f.Name f.paths combined.Paths, Schemas := schemas }

/-- Name and method map of the last fragment, in processing order, that defines a path. -/
def pathSource (path : String) : List Fragment → Option (String × APIMethods)
  | [] => none
  | f :: rest =>
    match pathSource path rest with
    | some r => some r
    | none => (mapGet f.paths path).map fun ms => (f.Name, ms)

/-- Text before the first dot of a file name. -/
def beforeDot (name : String) : String := String.mk (name.data.takeWhile fun c => c != '.')

/-- Values found under `paths.<path>.<method>` of an untyped tree. -/
def operationsOf (tree : List (String × Json)) : List Json :=
  match mapGet tree "paths" with
  | some (.obj ps) =>
    ps.flatMap fun kv =>
      match kv.2 with
      | .obj ms => ms.map Prod.snd
      | _ => []
  | _ => []

/-- The value is an object that has the key. -/
def Json.hasKey (j : Json) (k : String) : Bool :=
  match j with
  | .obj kvs => (mapGet kvs k).isSome
  | _ => false

/-! ## Sample directories -/

/-- Operation with a summary, declared tags and an empty `responses` object. -/
def sampleOp (summary : String) (tags : List String) : APIMethod :=
  { Summary := summary, OperationId := "", Tags := tags, RequestBody := none,
    Parameters := [], Responses := some (.obj []) }

/-- Typed model with the given paths and component schemas. -/
def sampleSchema (paths : List (String × APIMethods)) (schemas : List (String × RawMessage)) :
    APISchema :=
  { Openapi := "3.0.1", Info := { Title := "t", Version := "v" }, Paths := some paths,
    Components := some { Schemas := some schemas } }

/-- Regular file that reads and parses to the given typed model. -/
def sampleEntry (name : String) (s : APISchema) : DirEntry :=
  { Name := name, IsRegular := true, readErr := none,
    jsonOriginal := .ok (.obj (marshalAPISchema s)), schema := .ok s }

/-- Fragment A of the disjoint-union example: path `/a`, method `GET`, schema `Foo`; and
fragment B: path `/b`, method `POST`, schema `Bar`. -/
def disjointAB : List DirEntry :=
  [sampleEntry "a.yaml"
      (sampleSchema [("/a", some [("GET", sampleOp "list a" [])])] [("Foo", some (.obj []))]),
   sampleEntry "b.yaml"
      (sampleSchema [("/b", some [("POST", sampleOp "make b" [])])] [("Bar", some (.obj []))])]

/-- Two fragments that both declare the component schema `X`, with different bodies. -/
def duplicateX : List DirEntry :=
  [sampleEntry "a.yaml" (sampleSchema [] [("X", some (.str "one"))]),
   sampleEntry "b.yaml" (sampleSchema [] [("X", some (.str "two"))])]

/-- Directory where `a.yaml` defines `GET` on `/p` and the later `b.yaml` defines only `POST`
on the same path. -/
def getThenPost : List DirEntry :=
  [sampleEntry "a.yaml" (sampleSchema [("/p", some [("GET", sampleOp "read p" [])])] []),
   sampleEntry "b.yaml" (sampleSchema [("/p", some [("POST", sampleOp "write p" [])])] [])]

/-- Directory with the single fragment `mailboxes.extra.yaml`, whose operation declares a tag
of its own. -/
def mailboxesDir : List DirEntry :=
  [sampleEntry "mailboxes.extra.yaml"
      (sampleSchema [("/mailboxes", some [("GET", sampleOp "list" ["own"])])] [])]

/-- Directory with the single fragment `readme` (no dot in its name), whose operation
declares a tag of its own. -/
def readmeDir : List DirEntry :=
  [sampleEntry "readme" (sampleSchema [("/r", some [("GET", sampleOp "read" ["own"])])] [])]

/-- Two fragments that both define `GET` on `/x`, with different schema names. -/
def bothGetX : List DirEntry :=
  [sampleEntry "a.yaml"
      (sampleSchema [("/x", some [("GET", sampleOp "first" [])])] [("Foo", some (.obj []))]),
   sampleEntry "b.yaml"
      (sampleSchema [("/x", some [("GET", sampleOp "second" [])])] [("Bar", some (.obj []))])]

/-! ## Auxiliary notions for the fidelity check -/

/-- Body of the loop of `checkParsing` on one entry: the failing result, or `none` when the
entry is skipped or passes and the loop goes on. -/
def checkEntry (dir : String) (entry : DirEntry) : Option CheckResult :=
  if !entry.IsRegular then none
  else
    match entry.readErr with
    | some err => some { err := some err, printed := none }
    | none =>
      match entry.jsonOriginal with
      | .error err => some { err := some err, printed := none }
      | .ok jsonOriginal =>
        match unmarshalObject jsonOriginal with
        | .error err =>
          some { err := some (filepathJoin dir entry.Name ++ ": " ++ err), printed := none }
        | .ok original =>
          match entry.schema with
          | .error err => some { err := some err, printed := none }
          | .ok schema =>
            if !(compareObjects original (marshalAPISchema schema)).isEmpty then
              some { err := some (filepathJoin dir entry.Name ++ " schema is not preserved"),
                     printed := some (compareObjects original (marshalAPISchema schema)) }
            else none

/-- The untyped tree has `openapi`, `info` with `title` and `version`, and `paths`, and every
operation in it has `summary` and `responses`. -/
def hasRequiredKeys (tree : List (String × Json)) : Bool :=
  (mapGet tree "openapi").isSome &&
  (match mapGet tree "info" with
   | some i => i.hasKey "title" && i.hasKey "version"
   | none => false) &&
  (mapGet tree "paths").isSome &&
  (operationsOf tree).all fun op => op.hasKey "summary" && op.hasKey "responses"

/-- Fragment without `components`, for the file
`paths: {/a: {get: {responses: {}, summary: s}}}`, `info: {version: v, title: t}`,
`openapi: 3.0.1`. -/
def noComponents : DirEntry :=
  { Name := "plain.yaml", IsRegular := true, readErr := none,
    jsonOriginal := .ok (.obj
      [("paths", .obj [("/a", .obj [("get",
          .obj [("responses", .obj []), ("summary", .str "s")])])]),
       ("info", .obj [("version", .str "v"), ("title", .str "t")]),
       ("openapi", .str "3.0.1")]),
    schema := .ok
      { Openapi := "3.0.1", Info := { Title := "t", Version := "v" },
        Paths := some [("/a", some [("get", sampleOp "s" [])])], Components := none } }

/-- Fragment with the undeclared top-level key `x-extra` next to `paths`, for the file
`openapi: 3.0.1`, `info: {title: t, version: v}`, `paths: {}`, `x-extra: 1`. -/
def extraKey : DirEntry :=
  { Name := "extra.yaml", IsRegular := true, readErr := none,
    jsonOriginal := .ok (.obj
      [("openapi", .str "3.0.1"), ("info", .obj [("title", .str "t"), ("version", .str "v")]),
       ("paths", .obj []), ("x-extra", .num 1)]),
    schema := .ok
      { Openapi := "3.0.1", Info := { Title := "t", Version := "v" },
        Paths := some [], Components := none } }

/-- World whose directory holds the given entries and whose emitter calls succeed. -/
def sampleWorld (entries : List DirEntry) : World :=
  { readDir := .ok entries, yamlMarshal := fun _ => .ok "merged", writeFile := fun _ _ => none }

/-- Fragment whose only operation omits `summary`, for the file `openapi: 3.0.1`,
`info: {title: t, version: v}`, `paths: {/a: {get: {responses: {}}}}`; the typed model holds
the empty summary. -/
def missingSummary : DirEntry :=
  { Name := "nosummary.yaml", IsRegular := true, readErr := none,
    jsonOriginal := .ok (.obj
      [("openapi", .str "3.0.1"), ("info", .obj [("title", .str "t"), ("version", .str "v")]),
       ("paths", .obj [("/a", .obj [("get", .obj [("responses", .obj [])])])])]),
    schema := .ok
      { Openapi := "3.0.1", Info := { Title := "t", Version := "v" },
        Paths := some [("/a", some [("get", sampleOp "" [])])], Components := none } }

/-! ## Theorems -/

/-! ### Maps -/

theorem mapGet_mapSet_self {V : Type} (l : List (String × V)) (k : String) (v : V) :
    mapGet (mapSet l k v) k = some v := by
  induction l with
  | nil => simp [mapSet, mapGet]
  | cons hd tl ih =>
    obtain ⟨k', v'⟩ := hd
    by_cases h : k' = k
    · simp [mapSet, mapGet, h]
    · simp [mapSet, mapGet, h, ih]

theorem mapGet_mapSet_ne {V : Type} (l : List (String × V)) (k k' : String) (v : V)
    (h : k ≠ k') : mapGet (mapSet l k v) k' = mapGet l k' := by
  induction l with
  | nil => simp [mapSet, mapGet, h]
  | cons hd tl ih =>
    obtain ⟨k1, v1⟩ := hd
    by_cases h1 : k1 = k
    · subst h1; simp [mapSet, mapGet, h]
    · simp [mapSet, mapGet, h1, ih]

theorem mapGet_eq_none_iff {V : Type} (l : List (String × V)) (k : String) :
    mapGet l k = none ↔ k ∉ keys l := by
  induction l with
  | nil => simp [mapGet, keys]
  | cons hd tl ih =>
    obtain ⟨k1, v1⟩ := hd
    by_cases h1 : k1 = k
    · simp [mapGet, keys, h1]
    · have : ¬ k = k1 := fun h => h1 h.symm
      simp [mapGet, h1, ih, keys, this]

theorem mapGet_mem {V : Type} (l : List (String × V)) (k : String) (v : V)
    (h : mapGet l k = some v) : (k, v) ∈ l := by
  induction l with
  | nil => simp [mapGet] at h
  | cons hd tl ih =>
    obtain ⟨k1, v1⟩ := hd
    by_cases h1 : k1 = k
    · simp [mapGet, h1] at h; simp [h1, h]
    · simp [mapGet, h1] at h; simp [ih h]

theorem mapGet_of_mem_nodup {V : Type} (l : List (String × V)) (k : String) (v : V)
    (hn : (keys l).Nodup) (h : (k, v) ∈ l) : mapGet l k = some v := by
  induction l with
  | nil => simp at h
  | cons hd tl ih =>
    obtain ⟨k1, v1⟩ := hd
    simp only [keys, List.map_cons, List.nodup_cons] at hn
    rcases List.mem_cons.1 h with h | h
    · cases h; simp [mapGet]
    · have hk : k ∈ tl.map Prod.fst := List.mem_map.2 ⟨(k, v), h, rfl⟩
      have h1 : k1 ≠ k := fun e => hn.1 (e ▸ hk)
      simp [mapGet, h1, ih hn.2 h]

theorem mapGet_isSome_iff {V : Type} (l : List (String × V)) (k : String) :
    (mapGet l k).isSome = true ↔ k ∈ keys l := by
  cases h : mapGet l k with
  | none => simp [(mapGet_eq_none_iff l k).1 h]
  | some v =>
    have : k ∈ keys l := List.mem_map.2 ⟨(k, v), mapGet_mem l k v h, rfl⟩
    simp [this]

theorem mapSet_of_not_mem {V : Type} (l : List (String × V)) (k : String) (v : V)
    (h : k ∉ keys l) : mapSet l k v = l ++ [(k, v)] := by
  induction l with
  | nil => simp [mapSet]
  | cons hd tl ih =>
    obtain ⟨k1, v1⟩ := hd
    simp only [keys, List.map_cons, List.mem_cons, not_or] at h
    have h1 : k1 ≠ k := fun e => h.1 e.symm
    simp [mapSet, h1, ih h.2]

theorem mapSet_middle {V : Type} (l r : List (String × V)) (k : String) (v v' : V)
    (h : k ∉ keys l) : mapSet (l ++ (k, v) :: r) k v' = l ++ (k, v') :: r := by
  induction l with
  | nil => simp [mapSet]
  | cons hd tl ih =>
    obtain ⟨k1, v1⟩ := hd
    simp only [keys, List.map_cons, List.mem_cons, not_or] at h
    have h1 : k1 ≠ k := fun e => h.1 e.symm
    simp [mapSet, h1, ih h.2]

theorem keys_mapSet_mem {V : Type} (l : List (String × V)) (k : String) (v : V) (x : String) :
    x ∈ keys (mapSet l k v) ↔ x = k ∨ x ∈ keys l := by
  induction l with
  | nil => simp [mapSet, keys]
  | cons hd tl ih =>
    obtain ⟨k1, v1⟩ := hd
    by_cases h1 : k1 = k
    · subst h1; simp [mapSet, keys]
    · simp only [mapSet, h1, if_false, keys, List.map_cons, List.mem_cons] at ih ⊢
      rw [ih]; tauto

theorem mapGet_map_val {V W : Type} (g : V → W) (l : List (String × V)) (k : String) :
    mapGet (l.map fun kv => (kv.1, g kv.2)) k = (mapGet l k).map g := by
  induction l with
  | nil => simp [mapGet]
  | cons hd tl ih =>
    obtain ⟨k1, v1⟩ := hd
    by_cases h1 : k1 = k
    · simp [mapGet, h1]
    · simp [mapGet, h1, ih]

theorem keys_map_val {V W : Type} (g : V → W) (l : List (String × V)) :
    keys (l.map fun kv => (kv.1, g kv.2)) = keys l := by
  simp [keys, List.map_map, Function.comp_def]

/-! ### Tagging -/

theorem cutChars_dot_of_mem (l : List Char) (h : '.' ∈ l) :
    ∃ after, cutChars ['.'] l = some (l.takeWhile (fun c => c != '.'), after) := by
  induction l with
  | nil => simp at h
  | cons c cs ih =>
    by_cases hc : c = '.'
    · subst hc
      exact ⟨cs, by simp [cutChars, List.isPrefixOf]⟩
    · have hmem : '.' ∈ cs := by
        rcases List.mem_cons.1 h with h | h
        · exact absurd h.symm hc
        · exact h
      obtain ⟨after, ha⟩ := ih hmem
      have hc' : ¬ '.' = c := fun e => hc e.symm
      exact ⟨after, by simp [cutChars, List.isPrefixOf, hc, hc', ha]⟩

theorem cutChars_dot_of_not_mem (l : List Char) (h : '.' ∉ l) : cutChars ['.'] l = none := by
  induction l with
  | nil => simp [cutChars]
  | cons c cs ih =>
    simp only [List.mem_cons, not_or] at h
    simp [cutChars, List.isPrefixOf, h.1, ih h.2]

theorem tagOperation_of_dot (name : String) (op : APIMethod) (h : '.' ∈ name.data) :
    tagOperation name op = { op with Tags := [beforeDot name] } := by
  obtain ⟨after, ha⟩ := cutChars_dot_of_mem name.data h
  have hs : (".").data = ['.'] := rfl
  simp [tagOperation, stringsCut, hs, ha, beforeDot]

theorem tagOperation_of_no_dot (name : String) (op : APIMethod) (h : '.' ∉ name.data) :
    tagOperation name op = op := by
  have ha := cutChars_dot_of_not_mem name.data h
  have hs : (".").data = ['.'] := rfl
  simp [tagOperation, stringsCut, hs, ha]

theorem tagOperation_frame (name : String) (op : APIMethod) :
    (tagOperation name op).Summary = op.Summary ∧
    (tagOperation name op).OperationId = op.OperationId ∧
    (tagOperation name op).RequestBody = op.RequestBody ∧
    (tagOperation name op).Parameters = op.Parameters ∧
    (tagOperation name op).Responses = op.Responses := by
  by_cases h : '.' ∈ name.data
  · rw [tagOperation_of_dot name op h]; simp
  · rw [tagOperation_of_no_dot name op h]; simp

theorem foldl_mapSet_self {V : Type} (g : V → V) (todo done : List (String × V))
    (hn : (keys (done ++ todo)).Nodup) :
    todo.foldl (fun ms kv => mapSet ms kv.1 (g kv.2))
        ((done.map fun kv => (kv.1, g kv.2)) ++ todo)
      = (done ++ todo).map fun kv => (kv.1, g kv.2) := by
  induction todo generalizing done with
  | nil => simp
  | cons hd tl ih =>
    obtain ⟨k, v⟩ := hd
    have hk : k ∉ keys (done.map fun kv => (kv.1, g kv.2)) := by
      rw [keys_map_val]
      simp only [keys, List.map_append, List.map_cons] at hn
      have := (List.nodup_append.1 hn).2.2
      intro hmem
      exact this hmem (List.mem_cons_self _ _) 
    simp only [List.foldl_cons]
    rw [mapSet_middle _ _ _ _ _ hk]
    have h2 : (done.map fun kv => (kv.1, g kv.2)) ++ (k, g v) :: tl
        = ((done ++ [(k, v)]).map fun kv => (kv.1, g kv.2)) ++ tl := by simp
    rw [h2, ih (done ++ [(k, v)]) (by simpa using hn)]
    simp

theorem tagMethods_eq (name : String) (l : List (String × APIMethod))
    (hn : (keys l).Nodup) :
    tagMethods name (some l) = some (l.map fun kv => (kv.1, tagOperation name kv.2)) := by
  have := foldl_mapSet_self (tagOperation name) l [] (by simpa using hn)
  simp only [List.map_nil, List.nil_append] at this
  simp [tagMethods, this]

theorem tagMethods_range_keys (name : String) (ms : APIMethods)
    (hn : (keys ms.range).Nodup) : keys (tagMethods name ms).range = keys ms.range := by
  cases ms with
  | none => simp [tagMethods, GoMap.range]
  | some l =>
    simp only [GoMap.range] at hn
    rw [tagMethods_eq name l hn]
    simp [GoMap.range, keys_map_val]

/-! ### The path loop -/

theorem mapGet_mergePaths (name : String) (paths combined : List (String × APIMethods))
    (hn : (keys paths).Nodup) (p : String) :
    mapGet (mergePaths name paths combined) p =
      match mapGet paths p with
      | some ms => some (tagMethods name ms)
      | none => mapGet combined p := by
  induction paths generalizing combined with
  | nil => simp [mergePaths, mapGet]
  | cons hd tl ih =>
    obtain ⟨k, ms⟩ := hd
    simp only [keys, List.map_cons, List.nodup_cons] at hn
    have ih' := ih (mapSet combined k (tagMethods name ms)) hn.2
    simp only [mergePaths, List.foldl_cons] at ih' ⊢
    rw [ih']
    by_cases hk : k = p
    · subst hk
      have : mapGet tl k = none := (mapGet_eq_none_iff tl k).2 hn.1
      simp [this, mapGet, mapGet_mapSet_self]
    · simp only [mapGet, hk, if_false]
      cases mapGet tl p with
      | none => simp [mapGet_mapSet_ne _ _ _ _ hk]
      | some v => simp

theorem keys_mergePaths_mem (name : String) (paths combined : List (String × APIMethods))
    (x : String) :
    x ∈ keys (mergePaths name paths combined) ↔ x ∈ keys paths ∨ x ∈ keys combined := by
  induction paths generalizing combined with
  | nil => simp [mergePaths, keys]
  | cons hd tl ih =>
    obtain ⟨k, ms⟩ := hd
    have ih' := ih (mapSet combined k (tagMethods name ms))
    simp only [mergePaths, List.foldl_cons] at ih' ⊢
    rw [ih', keys_mapSet_mem]
    simp only [keys, List.map_cons, List.mem_cons]
    tauto

/-! ### The schema loop -/

theorem mergeSchemas_ok_of_nodup (fn : String) (l c : List (String × RawMessage))
    (hn : (keys (c ++ l)).Nodup) : mergeSchemas fn l c = .ok (c ++ l) := by
  induction l generalizing c with
  | nil => simp [mergeSchemas]
  | cons hd tl ih =>
    obtain ⟨k, v⟩ := hd
    have hk : k ∉ keys c := by
      simp only [keys, List.map_append, List.map_cons] at hn
      intro hmem
      exact (List.nodup_append.1 hn).2.2 hmem (List.mem_cons_self _ _)
    have hg : mapGet c k = none := (mapGet_eq_none_iff c k).2 hk
    simp only [mergeSchemas, hg]
    rw [mapSet_of_not_mem c k v hk, ih (c ++ [(k, v)]) (by simpa using hn)]
    simp

theorem mergeSchemas_ok_inv (fn : String) (l c c' : List (String × RawMessage))
    (h : mergeSchemas fn l c = .ok c') (hc : (keys c).Nodup) :
    c' = c ++ l ∧ (keys (c ++ l)).Nodup := by
  induction l generalizing c with
  | nil =>
    simp only [mergeSchemas, Except.ok.injEq] at h
    subst h; simpa using hc
  | cons hd tl ih =>
    obtain ⟨k, v⟩ := hd
    cases hg : mapGet c k with
    | some w => simp [mergeSchemas, hg] at h
    | none =>
      simp only [mergeSchemas, hg] at h
      have hk : k ∉ keys c := (mapGet_eq_none_iff c k).1 hg
      rw [mapSet_of_not_mem c k v hk] at h
      have hc' : (keys (c ++ [(k, v)])).Nodup := by
        simp only [keys, List.map_append, List.map_cons, List.map_nil]
        rw [List.nodup_append]
        refine ⟨hc, by simp, ?_⟩
        intro x hx hx'
        simp only [List.mem_singleton] at hx'
        exact hk (hx' ▸ hx)
      obtain ⟨h1, h2⟩ := ih (c ++ [(k, v)]) h hc'
      exact ⟨by simpa using h1, by simpa using h2⟩

theorem mergeSchemas_error_inv (fn : String) (l c : List (String × RawMessage)) (err : String)
    (h : mergeSchemas fn l c = .error err) (hl : (keys l).Nodup) :
    ∃ n, err = "duplicate message " ++ n ++ " in file " ++ fn ∧ n ∈ keys l ∧ n ∈ keys c := by
  induction l generalizing c with
  | nil => simp [mergeSchemas] at h
  | cons hd tl ih =>
    obtain ⟨k, v⟩ := hd
    simp only [keys, List.map_cons, List.nodup_cons] at hl
    cases hg : mapGet c k with
    | some w =>
      simp only [mergeSchemas, hg, Except.error.injEq] at h
      refine ⟨k, h.symm, by simp [keys], ?_⟩
      exact (mapGet_isSome_iff c k).1 (by simp [hg])
    | none =>
      simp only [mergeSchemas, hg] at h
      obtain ⟨n, h1, h2, h3⟩ := ih (mapSet c k v) h hl.2
      refine ⟨n, h1, by simp only [keys, List.map_cons, List.mem_cons]; exact Or.inr h2, ?_⟩
      rcases (keys_mapSet_mem c k v n).1 h3 with e | e
      · exact absurd (e ▸ h2) hl.1
      · exact e

/-! ### The entry loop -/

theorem combineLoop_eq_combineFrags (dir : String) (entries : List DirEntry) (c : Combined)
    (hl : Loaded entries = true) :
    combineLoop dir entries c = combineFrags dir (fragmentsOf entries) c := by
  induction entries generalizing c with
  | nil => simp [combineLoop, fragmentsOf, combineFrags]
  | cons e rest ih =>
    have hrest : Loaded rest = true := by
      simp only [Loaded, List.all_cons, Bool.and_eq_true] at hl ⊢
      exact hl.2
    have he : (!e.IsRegular ||
        (e.readErr.isNone && match e.schema with | .ok _ => true | .error _ => false)) = true := by
      simp only [Loaded, List.all_cons, Bool.and_eq_true] at hl
      exact hl.1
    cases hreg : e.IsRegular with
    | false => simp [combineLoop, fragmentsOf, hreg, ih _ hrest]
    | true =>
      cases hr : e.readErr with
      | some x => simp [hreg, hr] at he
      | none =>
        cases hs : e.schema with
        | error x => simp [hreg, hr, hs] at he
        | ok sch =>
          cases hc : sch.Components with
          | none =>
            simp [combineLoop, fragmentsOf, hreg, hr, hs, hc, combineFrags, Fragment.schemas,
              Fragment.paths, mergeSchemas, ih _ hrest]
          | some comps =>
            simp only [combineLoop, fragmentsOf, hreg, hr, hs, hc, combineFrags,
              Fragment.schemas, Fragment.paths, Bool.not_true, Bool.false_eq_true, if_false,
              if_true]
            cases mergeSchemas (filepathJoin dir e.Name) comps.Schemas.range c.Schemas with
            | error x => rfl
            | ok v => simp [ih _ hrest]

theorem combineFrags_schemas (dir : String) (frags : List Fragment) (c c' : Combined)
    (h : combineFrags dir frags c = .ok c') (hc : (keys c.Schemas).Nodup) :
    c'.Schemas = c.Schemas ++ frags.flatMap Fragment.schemas ∧
      (keys (c.Schemas ++ frags.flatMap Fragment.schemas)).Nodup := by
  induction frags generalizing c with
  | nil =>
    simp only [combineFrags, Except.ok.injEq] at h
    subst h; simpa using hc
  | cons f rest ih =>
    simp only [combineFrags] at h
    cases hm : mergeSchemas (filepathJoin dir f.Name) f.schemas c.Schemas with
    | error x => simp [hm] at h
    | ok v =>
      simp only [hm] at h
      obtain ⟨h1, h2⟩ := mergeSchemas_ok_inv _ _ _ _ hm hc
      subst h1
      obtain ⟨h3, h4⟩ := ih _ h h2
      simp only [List.flatMap_cons]
      exact ⟨by simpa using h3, by simpa using h4⟩

theorem combineFrags_ok_of_nodup (dir : String) (frags : List Fragment) (c : Combined)
    (hn : (keys (c.Schemas ++ frags.flatMap Fragment.schemas)).Nodup) :
    ∃ c', combineFrags dir frags c = .ok c' := by
  induction frags generalizing c with
  | nil => exact ⟨c, rfl⟩
  | cons f rest ih =>
    simp only [List.flatMap_cons] at hn
    have h1 : (keys (c.Schemas ++ f.schemas)).Nodup := by
      rw [← List.append_assoc] at hn
      unfold keys at hn ⊢
      rw [List.map_append] at hn
      exact (List.nodup_append.1 hn).1
    have hm := mergeSchemas_ok_of_nodup (filepathJoin dir f.Name) f.schemas c.Schemas h1
    simp only [combineFrags, hm]
    exact ih _ (by simpa using hn)

theorem combineFrags_error (dir : String) (frags : List Fragment) (c : Combined) (err : String)
    (h : combineFrags dir frags c = .error err) (hc : (keys c.Schemas).Nodup)
    (hw : ∀ f ∈ frags, f.schemaNames.Nodup) :
    ∃ pre f post n, frags = pre ++ f :: post ∧
      err = "duplicate message " ++ n ++ " in file " ++ filepathJoin dir f.Name ∧
      n ∈ f.schemaNames ∧ n ∈ keys (c.Schemas ++ pre.flatMap Fragment.schemas) ∧
      (keys (c.Schemas ++ pre.flatMap Fragment.schemas)).Nodup := by
  induction frags generalizing c with
  | nil => simp [combineFrags] at h
  | cons f rest ih =>
    simp only [combineFrags] at h
    cases hm : mergeSchemas (filepathJoin dir f.Name) f.schemas c.Schemas with
    | error x =>
      simp only [hm, Except.error.injEq] at h
      subst h
      obtain ⟨n, h1, h2, h3⟩ :=
        mergeSchemas_error_inv _ _ _ _ hm (hw f (List.mem_cons_self _ _))
      exact ⟨[], f, rest, n, rfl, h1, h2, by simpa using h3, by simpa using hc⟩
    | ok v =>
      simp only [hm] at h
      obtain ⟨h1, h2⟩ := mergeSchemas_ok_inv _ _ _ _ hm hc
      subst h1
      obtain ⟨pre, g, post, n, e1, e2, e3, e4, e5⟩ :=
        ih _ h h2 (fun x hx => hw x (List.mem_cons_of_mem _ hx))
      refine ⟨f :: pre, g, post, n, by simp [e1], e2, e3, ?_, ?_⟩
      · simpa [List.flatMap_cons] using e4
      · simpa [List.flatMap_cons] using e5

theorem combineFrags_paths (dir : String) (frags : List Fragment) (c c' : Combined)
    (h : combineFrags dir frags c = .ok c') (hw : ∀ f ∈ frags, f.pathNames.Nodup)
    (p : String) :
    mapGet c'.Paths p =
      match pathSource p frags with
      | some r => some (tagMethods r.1 r.2)
      | none => mapGet c.Paths p := by
  induction frags generalizing c with
  | nil =>
    simp only [combineFrags, Except.ok.injEq] at h
    subst h; simp [pathSource]
  | cons f rest ih =>
    simp only [combineFrags] at h
    cases hm : mergeSchemas (filepathJoin dir f.Name) f.schemas c.Schemas with
    | error x => simp [hm] at h
    | ok v =>
      simp only [hm] at h
      have ih' := ih _ h (fun x hx => hw x (List.mem_cons_of_mem _ hx))
      rw [ih']
      simp only [pathSource]
      cases pathSource p rest with
      | some r => rfl
      | none =>
        simp only []
        rw [mapGet_mergePaths f.Name f.paths c.Paths (hw f (List.mem_cons_self _ _)) p]
        cases mapGet f.paths p with
        | none => rfl
        | some ms => rfl

theorem combineFrags_path_keys (dir : String) (frags : List Fragment) (c c' : Combined)
    (h : combineFrags dir frags c = .ok c') (x : String) :
    x ∈ keys c'.Paths ↔ x ∈ keys c.Paths ∨ ∃ f ∈ frags, x ∈ f.pathNames := by
  induction frags generalizing c with
  | nil =>
    simp only [combineFrags, Except.ok.injEq] at h
    subst h; simp
  | cons f rest ih =>
    simp only [combineFrags] at h
    cases hm : mergeSchemas (filepathJoin dir f.Name) f.schemas c.Schemas with
    | error x => simp [hm] at h
    | ok v =>
      simp only [hm] at h
      rw [ih _ h, keys_mergePaths_mem]
      simp only [List.mem_cons, exists_eq_or_imp, Fragment.pathNames]
      tauto

theorem pathSource_of_last (p : String) (pre post : List Fragment) (f : Fragment)
    (ms : APIMethods) (hf : mapGet f.paths p = some ms)
    (hlast : ∀ g ∈ post, mapGet g.paths p = none) :
    pathSource p (pre ++ f :: post) = some (f.Name, ms) := by
  have hpost : pathSource p post = none := by
    induction post with
    | nil => rfl
    | cons g tl ih =>
      simp [pathSource, ih (fun x hx => hlast x (List.mem_cons_of_mem _ hx)),
        hlast g (List.mem_cons_self _ _)]
  induction pre with
  | nil => simp [pathSource, hpost, hf]
  | cons g tl ih => simp [pathSource, ih]

theorem pathSource_inv (p : String) (frags : List Fragment) (r : String × APIMethods)
    (h : pathSource p frags = some r) :
    ∃ pre f post, frags = pre ++ f :: post ∧ f.Name = r.1 ∧ mapGet f.paths p = some r.2 ∧
      ∀ g ∈ post, mapGet g.paths p = none := by
  induction frags with
  | nil => simp [pathSource] at h
  | cons g tl ih =>
    simp only [pathSource] at h
    cases hs : pathSource p tl with
    | some r' =>
      simp only [hs, Option.some.injEq] at h
      subst h
      obtain ⟨pre, f, post, e1, e2, e3, e4⟩ := ih hs
      exact ⟨g :: pre, f, post, by simp [e1], e2, e3, e4⟩
    | none =>
      simp only [hs] at h
      cases hg : mapGet g.paths p with
      | none => simp [hg] at h
      | some ms =>
        simp only [hg, Option.map_some', Option.some.injEq] at h
        subst h
        refine ⟨[], g, tl, rfl, rfl, hg, ?_⟩
        intro x hx
        have hnone : ∀ l : List Fragment, pathSource p l = none →
            ∀ y ∈ l, mapGet y.paths p = none := by
          intro l
          induction l with
          | nil => intro _ y hy; simp at hy
          | cons a b ihb =>
            intro hl y hy
            simp only [pathSource] at hl
            cases hb : pathSource p b with
            | some q => simp [hb] at hl
            | none =>
              simp only [hb, Option.map_eq_none'] at hl
              rcases List.mem_cons.1 hy with e | e
              · exact e ▸ hl
              · exact ihb hb y e
        exact hnone tl hs x hx

theorem loaded_of_combineLoop_ok (dir : String) (entries : List DirEntry) (c c' : Combined)
    (h : combineLoop dir entries c = .ok c') : Loaded entries = true := by
  induction entries generalizing c with
  | nil => rfl
  | cons e rest ih =>
    simp only [Loaded, List.all_cons, Bool.and_eq_true]
    cases hreg : e.IsRegular with
    | false =>
      simp only [combineLoop, hreg, Bool.not_false, if_true] at h
      exact ⟨by simp, ih _ h⟩
    | true =>
      simp only [combineLoop, hreg, Bool.not_true, Bool.false_eq_true, if_false] at h
      cases hr : e.readErr with
      | some x => simp [hr] at h
      | none =>
        cases hs : e.schema with
        | error x => simp [hr, hs] at h
        | ok sch =>
          simp only [hr, hs] at h
          refine ⟨by simp, ?_⟩
          cases hc : sch.Components with
          | none =>
            simp only [hc] at h
            exact ih _ h
          | some comps =>
            simp only [hc] at h
            cases hm : mergeSchemas (filepathJoin dir e.Name) comps.Schemas.range c.Schemas with
            | error x => simp [hm] at h
            | ok v =>
              simp only [hm] at h
              exact ih _ h

theorem loaded_of_combine_ok (dir : String) (entries : List DirEntry) (doc : APISchema)
    (h : combine dir (.ok entries) = .ok doc) : Loaded entries = true := by
  simp only [combine] at h
  cases hc : combineLoop dir entries { Paths := [], Schemas := [] } with
  | error x => simp [hc] at h
  | ok c' => exact loaded_of_combineLoop_ok dir entries _ c' hc

/-! ### `combine` on a directory whose regular entries load -/

theorem keys_flatMap_schemas (frags : List Fragment) :
    keys (frags.flatMap Fragment.schemas) = frags.flatMap Fragment.schemaNames := by
  simp only [keys, List.map_flatMap]; rfl

theorem combine_ok_inv (dir : String) (entries : List DirEntry) (doc : APISchema)
    (hl : Loaded entries = true) (h : combine dir (.ok entries) = .ok doc) :
    ∃ c', combineFrags dir (fragmentsOf entries) { Paths := [], Schemas := [] } = .ok c' ∧
      doc.Paths = some c'.Paths ∧ doc.Components = some { Schemas := some c'.Schemas } := by
  simp only [combine, combineLoop_eq_combineFrags dir entries _ hl] at h
  cases hc : combineFrags dir (fragmentsOf entries) { Paths := [], Schemas := [] } with
  | error x => simp [hc] at h
  | ok c' =>
    simp only [hc, Except.ok.injEq] at h
    subst h
    exact ⟨c', rfl, rfl, rfl⟩

theorem combine_ok_of_frags (dir : String) (entries : List DirEntry) (c' : Combined)
    (hl : Loaded entries = true)
    (h : combineFrags dir (fragmentsOf entries) { Paths := [], Schemas := [] } = .ok c') :
    ∃ doc, combine dir (.ok entries) = .ok doc ∧
      doc.Paths = some c'.Paths ∧ doc.Components = some { Schemas := some c'.Schemas } := by
  simp only [combine, combineLoop_eq_combineFrags dir entries _ hl, h]
  exact ⟨_, rfl, rfl, rfl⟩

theorem combine_error_inv (dir : String) (entries : List DirEntry) (err : String)
    (hl : Loaded entries = true) (h : combine dir (.ok entries) = .error err) :
    combineFrags dir (fragmentsOf entries) { Paths := [], Schemas := [] } = .error err := by
  simp only [combine, combineLoop_eq_combineFrags dir entries _ hl] at h
  cases hc : combineFrags dir (fragmentsOf entries) { Paths := [], Schemas := [] } with
  | error x => simpa [hc] using h
  | ok c' => simp [hc] at h

theorem combine_opAt (dir : String) (entries : List DirEntry) (doc : APISchema)
    (hl : Loaded entries = true) (hw : ∀ f ∈ fragmentsOf entries, f.WellFormed)
    (h : combine dir (.ok entries) = .ok doc)
    (pre post : List Fragment) (f : Fragment) (p : String)
    (hsplit : fragmentsOf entries = pre ++ f :: post)
    (hf : (mapGet f.paths p).isSome = true)
    (hlast : ∀ g ∈ post, mapGet g.paths p = none) (m : String) :
    doc.opAt p m = (f.opAt p m).map (tagOperation f.Name) := by
  obtain ⟨c', hc, hp, _⟩ := combine_ok_inv dir entries doc hl h
  have hpaths := combineFrags_paths dir _ _ _ hc (fun x hx => (hw x hx).1) p
  cases hms : mapGet f.paths p with
  | none => simp [hms] at hf
  | some ms =>
    rw [hsplit, pathSource_of_last p pre post f ms hms hlast] at hpaths
    simp only [APISchema.opAt, hp, GoMap.range, hpaths, Fragment.opAt, hms]
    cases ms with
    | none => simp [tagMethods]
    | some l =>
      have hfm : f ∈ fragmentsOf entries := by rw [hsplit]; simp
      have hn : (keys l).Nodup := by
        have := (hw f hfm).2.1 (p, some l) (mapGet_mem _ _ _ hms)
        simpa [GoMap.range] using this
      rw [tagMethods_eq f.Name l hn]
      simp only []
      exact mapGet_map_val (tagOperation f.Name) l m

theorem combine_path_source (dir : String) (entries : List DirEntry) (doc : APISchema)
    (hl : Loaded entries = true) (hw : ∀ f ∈ fragmentsOf entries, f.WellFormed)
    (h : combine dir (.ok entries) = .ok doc) (p : String)
    (hp : (mapGet doc.Paths.range p).isSome = true) :
    ∃ pre f post, fragmentsOf entries = pre ++ f :: post ∧
      (mapGet f.paths p).isSome = true ∧ ∀ g ∈ post, mapGet g.paths p = none := by
  obtain ⟨c', hc, hpd, _⟩ := combine_ok_inv dir entries doc hl h
  have hpaths := combineFrags_paths dir _ _ _ hc (fun x hx => (hw x hx).1) p
  simp only [hpd, GoMap.range] at hp
  cases hs : pathSource p (fragmentsOf entries) with
  | none => simp [hpaths, hs, mapGet] at hp
  | some r =>
    obtain ⟨pre, f, post, e1, _, e3, e4⟩ := pathSource_inv p _ r hs
    exact ⟨pre, f, post, e1, by simp [e3], e4⟩

theorem opAt_isSome_path (doc : APISchema) (p m : String) (op : APIMethod)
    (h : doc.opAt p m = some op) : (mapGet doc.Paths.range p).isSome = true := by
  unfold APISchema.opAt at h
  cases hg : mapGet doc.Paths.range p with
  | none => simp [hg] at h
  | some v => rfl

/-! ### Distinct keys of the combined path map -/

theorem keys_mapSet_of_mem {V : Type} (l : List (String × V)) (k : String) (v : V)
    (h : k ∈ keys l) : keys (mapSet l k v) = keys l := by
  induction l with
  | nil => simp [keys] at h
  | cons hd tl ih =>
    obtain ⟨k1, v1⟩ := hd
    by_cases h1 : k1 = k
    · simp [mapSet, keys, h1]
    · have hk : k ∈ keys tl := by
        simp only [keys, List.map_cons, List.mem_cons] at h
        rcases h with e | e
        · exact absurd e.symm h1
        · exact e
      have := ih hk
      simp only [keys] at this
      simp [mapSet, keys, h1, this]

theorem nodup_keys_mapSet {V : Type} (l : List (String × V)) (k : String) (v : V)
    (hn : (keys l).Nodup) : (keys (mapSet l k v)).Nodup := by
  by_cases h : k ∈ keys l
  · rw [keys_mapSet_of_mem l k v h]; exact hn
  · rw [mapSet_of_not_mem l k v h]
    simp only [keys, List.map_append, List.map_cons, List.map_nil]
    rw [List.nodup_append]
    refine ⟨hn, by simp, ?_⟩
    intro x hx hx'
    simp only [List.mem_singleton] at hx'
    exact h (hx' ▸ hx)

theorem nodup_keys_mergePaths (name : String) (paths combined : List (String × APIMethods))
    (hn : (keys combined).Nodup) : (keys (mergePaths name paths combined)).Nodup := by
  induction paths generalizing combined with
  | nil => simpa [mergePaths] using hn
  | cons hd tl ih =>
    have := ih (mapSet combined hd.1 (tagMethods name hd.2)) (nodup_keys_mapSet _ _ _ hn)
    simpa [mergePaths] using this

theorem combineFrags_nodup_paths (dir : String) (frags : List Fragment) (c c' : Combined)
    (h : combineFrags dir frags c = .ok c') (hn : (keys c.Paths).Nodup) :
    (keys c'.Paths).Nodup := by
  induction frags generalizing c with
  | nil =>
    simp only [combineFrags, Except.ok.injEq] at h
    subst h; exact hn
  | cons f rest ih =>
    simp only [combineFrags] at h
    cases hm : mergeSchemas (filepathJoin dir f.Name) f.schemas c.Schemas with
    | error x => simp [hm] at h
    | ok v =>
      simp only [hm] at h
      exact ih _ h (nodup_keys_mergePaths _ _ _ hn)

/-! ### Claims about `combine` -/

/-- C1. On a directory whose regular entries all load, `combine` returns an error exactly
when some component schema name is declared by two different fragments (the bodies play no
part); a failing run returns no document, and its error names a colliding schema name and the
file of the first fragment, in processing order, that declares a name already declared by an
earlier fragment. -/
theorem combine_duplicate_schema_error (dir : String) (entries : List DirEntry)
    (hl : Loaded entries = true)
    (hw : ∀ f ∈ fragmentsOf entries, f.schemaNames.Nodup) :
    ((∃ err, combine dir (.ok entries) = .error err) ↔
      ∃ pre f mid g post n, fragmentsOf entries = pre ++ f :: (mid ++ g :: post) ∧
        n ∈ f.schemaNames ∧ n ∈ g.schemaNames) ∧
    (∀ err, combine dir (.ok entries) = .error err →
      (∀ doc, combine dir (.ok entries) ≠ .ok doc) ∧
      ∃ pre f post n, fragmentsOf entries = pre ++ f :: post ∧
        err = "duplicate message " ++ n ++ " in file " ++ filepathJoin dir f.Name ∧
        n ∈ f.schemaNames ∧ (∃ g ∈ pre, n ∈ g.schemaNames) ∧
        (∀ pre' f' post', pre = pre' ++ f' :: post' →
          ∀ n' ∈ f'.schemaNames, ∀ g' ∈ pre', n' ∉ g'.schemaNames)) := by
  have key : ∀ err, combine dir (.ok entries) = .error err →
      ∃ pre f post n, fragmentsOf entries = pre ++ f :: post ∧
        err = "duplicate message " ++ n ++ " in file " ++ filepathJoin dir f.Name ∧
        n ∈ f.schemaNames ∧ (∃ g ∈ pre, n ∈ g.schemaNames) ∧
        (∀ pre' f' post', pre = pre' ++ f' :: post' →
          ∀ n' ∈ f'.schemaNames, ∀ g' ∈ pre', n' ∉ g'.schemaNames) := by
    intro err h
    have hc := combine_error_inv dir entries err hl h
    obtain ⟨pre, f, post, n, e1, e2, e3, e4, e5⟩ :=
      combineFrags_error dir _ _ err hc (by simp [keys]) hw
    simp only [List.nil_append, keys_flatMap_schemas] at e4 e5
    refine ⟨pre, f, post, n, e1, e2, e3, ?_, ?_⟩
    · obtain ⟨g, hg, hn⟩ := List.mem_flatMap.1 e4
      exact ⟨g, hg, hn⟩
    · intro pre' f' post' hpre n' hn' g' hg' hbad
      subst hpre
      simp only [List.flatMap_append, List.flatMap_cons] at e5
      have hdis := (List.nodup_append.1 e5).2.2
      exact hdis (List.mem_flatMap.2 ⟨g', hg', hbad⟩) (List.mem_append_left _ hn')
  refine ⟨⟨?_, ?_⟩, ?_⟩
  · rintro ⟨err, h⟩
    obtain ⟨pre, f, post, n, e1, _, e3, ⟨g, hg, hn⟩, _⟩ := key err h
    obtain ⟨s, t, hst⟩ := List.append_of_mem hg
    exact ⟨s, g, t, f, post, n, by simp [e1, hst], hn, e3⟩
  · rintro ⟨pre, f, mid, g, post, n, e1, hf, hg⟩
    cases h : combine dir (.ok entries) with
    | error err => exact ⟨err, rfl⟩
    | ok doc =>
      exfalso
      obtain ⟨c', hc, _, _⟩ := combine_ok_inv dir entries doc hl h
      have hn := (combineFrags_schemas dir _ _ _ hc (by simp [keys])).2
      simp only [List.nil_append, keys_flatMap_schemas] at hn
      simp only [e1, List.flatMap_append, List.flatMap_cons] at hn
      have h1 := (List.nodup_append.1 hn).2.1
      have hdis := (List.nodup_append.1 h1).2.2
      exact hdis hf (List.mem_append_right _ (List.mem_append_left _ hg))
  · intro err h
    refine ⟨?_, key err h⟩
    intro doc hdoc
    rw [h] at hdoc
    cases hdoc

/-- C1, instance: two fragments that declare `X` with different bodies. -/
theorem combine_duplicate_schema_error_witness :
    Loaded duplicateX = true ∧ (∀ f ∈ fragmentsOf duplicateX, f.schemaNames.Nodup) ∧
      combine "openapi" (.ok duplicateX) =
        .error "duplicate message X in file openapi/b.yaml" ∧
      ((∃ err, combine "openapi" (.ok duplicateX) = .error err) ↔
        ∃ pre f mid g post n, fragmentsOf duplicateX = pre ++ f :: (mid ++ g :: post) ∧
          n ∈ f.schemaNames ∧ n ∈ g.schemaNames) :=
  ⟨by decide, by decide, rfl,
    (combine_duplicate_schema_error "openapi" duplicateX (by decide) (by decide)).1⟩

/-- C3, as stated, fails: `a.yaml` defines `GET` on `/p`, the later `b.yaml` defines only
`POST` on `/p`; `combine` succeeds and the merged document has `POST` but no `GET` under
`/p`, because line 170 assigns the whole method map of the path. -/
theorem combine_drops_earlier_method :
    ∃ doc, combine "openapi" (.ok getThenPost) = .ok doc ∧
      (∃ f ∈ fragmentsOf getThenPost, (f.opAt "/p" "GET").isSome = true) ∧
      (doc.opAt "/p" "POST").isSome = true ∧
      (doc.opAt "/p" "GET").isSome = false :=
  ⟨_, rfl, by decide, by decide, by decide⟩

/-- C3, amended. When `combine` succeeds, the merged entry of a path defined by some fragment
is the method map of the last fragment, in processing order, that defines the path: under
every method key the merged document holds that fragment's operation (retagged), and holds
nothing where that fragment defines nothing, whatever earlier fragments define there. -/
theorem combine_path_of_last_definer (dir : String) (entries : List DirEntry)
    (doc : APISchema)
    (hw : ∀ f ∈ fragmentsOf entries, f.WellFormed)
    (h : combine dir (.ok entries) = .ok doc)
    (pre post : List Fragment) (f : Fragment) (p : String)
    (hsplit : fragmentsOf entries = pre ++ f :: post)
    (hf : p ∈ f.pathNames)
    (hlast : ∀ g ∈ post, p ∉ g.pathNames) (m : String) :
    doc.opAt p m = (f.opAt p m).map (tagOperation f.Name) :=
  combine_opAt dir entries doc (loaded_of_combine_ok dir entries doc h) hw h pre post f p hsplit
    ((mapGet_isSome_iff _ _).2 hf) (fun g hg => (mapGet_eq_none_iff _ _).2 (hlast g hg)) m

/-- C3, amended, instance: after `a.yaml` (GET on `/p`) and `b.yaml` (POST on `/p`) the
merged `/p` is that of `b.yaml`. -/
theorem combine_path_of_last_definer_witness :
    ∃ doc, combine "openapi" (.ok getThenPost) = .ok doc ∧
      ∀ m, doc.opAt "/p" m =
        (Fragment.opAt ⟨"b.yaml", sampleSchema [("/p", some [("POST", sampleOp "write p" [])])] []⟩
          "/p" m).map (tagOperation "b.yaml") :=
  ⟨_, rfl, fun m =>
    combine_path_of_last_definer "openapi" getThenPost _ (by decide) rfl
      [⟨"a.yaml", sampleSchema [("/p", some [("GET", sampleOp "read p" [])])] []⟩] []
      ⟨"b.yaml", sampleSchema [("/p", some [("POST", sampleOp "write p" [])])] []⟩ "/p"
      rfl (by decide) (by simp) m⟩

/-- C4. When `combine` succeeds, every operation that the merged document takes from a
fragment whose file name contains a dot has the tag list `[t]`, with `t` the text of the
entry name (not of the joined path) before its first dot, whatever tags the fragment
declared; for `mailboxes.extra.yaml` the tag is `mailboxes`. -/
theorem combine_tags_from_file_name (dir : String) (entries : List DirEntry)
    (doc : APISchema)
    (hw : ∀ f ∈ fragmentsOf entries, f.WellFormed)
    (h : combine dir (.ok entries) = .ok doc)
    (pre post : List Fragment) (f : Fragment) (p : String)
    (hsplit : fragmentsOf entries = pre ++ f :: post)
    (hf : p ∈ f.pathNames)
    (hlast : ∀ g ∈ post, p ∉ g.pathNames)
    (hdot : '.' ∈ f.Name.data) :
    (∀ m op0, f.opAt p m = some op0 →
      ∃ op, doc.opAt p m = some op ∧ op.Tags = [beforeDot f.Name]) ∧
    (∀ m op, doc.opAt p m = some op → op.Tags = [beforeDot f.Name]) ∧
    (∀ op0 : APIMethod, (tagOperation "mailboxes.extra.yaml" op0).Tags = ["mailboxes"]) := by
  have hop : ∀ m, doc.opAt p m = (f.opAt p m).map (tagOperation f.Name) :=
    combine_opAt dir entries doc (loaded_of_combine_ok dir entries doc h) hw h pre post f p hsplit
      ((mapGet_isSome_iff _ _).2 hf) (fun g hg => (mapGet_eq_none_iff _ _).2 (hlast g hg))
  refine ⟨?_, ?_, ?_⟩
  · intro m op0 h0
    refine ⟨tagOperation f.Name op0, by simp [hop m, h0], ?_⟩
    rw [tagOperation_of_dot f.Name op0 hdot]
  · intro m op h1
    rw [hop m] at h1
    cases h0 : f.opAt p m with
    | none => simp [h0] at h1
    | some op0 =>
      simp only [h0, Option.map_some', Option.some.injEq] at h1
      subst h1
      rw [tagOperation_of_dot f.Name op0 hdot]
  · intro op0
    rw [tagOperation_of_dot "mailboxes.extra.yaml" op0 (by decide)]
    have hb : beforeDot "mailboxes.extra.yaml" = "mailboxes" := by decide
    simp [hb]

/-- C4, instance: the fragment `mailboxes.extra.yaml`, whose operation declares the tag
`own`, contributes it with the tag list `[mailboxes]`. -/
theorem combine_tags_from_file_name_witness :
    ∃ doc, combine "openapi" (.ok mailboxesDir) = .ok doc ∧
      ∀ m op, doc.opAt "/mailboxes" m = some op →
        op.Tags = [beforeDot "mailboxes.extra.yaml"] :=
  ⟨_, rfl,
    (combine_tags_from_file_name "openapi" mailboxesDir _ (by decide) rfl [] []
      ⟨"mailboxes.extra.yaml",
        sampleSchema [("/mailboxes", some [("GET", sampleOp "list" ["own"])])] []⟩
      "/mailboxes" rfl (by decide) (by simp) (by decide)).2.1⟩

/-- C5, as stated, fails: the fragment `readme` declares the tag `own` on its operation, and
the merged operation still carries `own`: line 163 leaves the tag list alone when the entry
name has no dot. -/
theorem combine_keeps_declared_tags :
    ∃ doc op, combine "openapi" (.ok readmeDir) = .ok doc ∧ '.' ∉ ("readme").data ∧
      doc.opAt "/r" "GET" = some op ∧ op.Tags = ["own"] ∧ op.Tags ≠ [] :=
  ⟨_, _, rfl, by decide, rfl, rfl, by decide⟩

/-- C5, amended. When `combine` succeeds, every operation that the merged document takes from
a fragment whose file name contains no dot is that fragment's operation unchanged: no tag is
injected, and its tag list is the one the fragment declared (empty exactly when the fragment
declared none). -/
theorem combine_no_dot_unchanged (dir : String) (entries : List DirEntry)
    (doc : APISchema)
    (hw : ∀ f ∈ fragmentsOf entries, f.WellFormed)
    (h : combine dir (.ok entries) = .ok doc)
    (pre post : List Fragment) (f : Fragment) (p : String)
    (hsplit : fragmentsOf entries = pre ++ f :: post)
    (hf : p ∈ f.pathNames)
    (hlast : ∀ g ∈ post, p ∉ g.pathNames)
    (hdot : '.' ∉ f.Name.data) (m : String) :
    doc.opAt p m = f.opAt p m := by
  rw [combine_opAt dir entries doc (loaded_of_combine_ok dir entries doc h) hw h pre post f p
    hsplit
    ((mapGet_isSome_iff _ _).2 hf) (fun g hg => (mapGet_eq_none_iff _ _).2 (hlast g hg)) m]
  cases f.opAt p m with
  | none => rfl
  | some op0 => simp [tagOperation_of_no_dot f.Name op0 hdot]

/-- C5, amended, instance: the operation of `readme` is merged as declared. -/
theorem combine_no_dot_unchanged_witness :
    ∃ doc, combine "openapi" (.ok readmeDir) = .ok doc ∧
      ∀ m, doc.opAt "/r" m =
        Fragment.opAt
          ⟨"readme", sampleSchema [("/r", some [("GET", sampleOp "read" ["own"])])] []⟩ "/r" m :=
  ⟨_, rfl, fun m =>
    combine_no_dot_unchanged "openapi" readmeDir _ (by decide) rfl [] []
      ⟨"readme", sampleSchema [("/r", some [("GET", sampleOp "read" ["own"])])] []⟩
      "/r" rfl (by decide) (by simp) (by decide) m⟩

/-- C6. When the fragments define pairwise disjoint paths and declare pairwise disjoint
component schema names, `combine` succeeds; the keys of the merged path map are exactly the
paths of the fragments, each path carries exactly the method keys its fragment declared, and
the merged schema names are exactly the names the fragments declare.  For A = (`/a`, `GET`,
`Foo`) and B = (`/b`, `POST`, `Bar`) the result has the paths `/a` with `GET` and `/b` with
`POST`, and the schemas `Foo` and `Bar`. -/
theorem combine_disjoint_union (dir : String) (entries : List DirEntry)
    (hl : Loaded entries = true)
    (hw : ∀ f ∈ fragmentsOf entries, f.WellFormed)
    (hp : (fragmentsOf entries).Pairwise fun f g => ∀ p ∈ f.pathNames, p ∉ g.pathNames)
    (hs : (fragmentsOf entries).Pairwise fun f g => ∀ n ∈ f.schemaNames, n ∉ g.schemaNames) :
    (∃ doc, combine dir (.ok entries) = .ok doc ∧
      (∀ p, p ∈ keys doc.Paths.range ↔ ∃ f ∈ fragmentsOf entries, p ∈ f.pathNames) ∧
      (keys doc.Paths.range).Nodup ∧
      (∀ f ∈ fragmentsOf entries, ∀ p ms, (p, ms) ∈ f.paths →
        doc.methodsAt p = some (keys ms.range)) ∧
      (∀ n, n ∈ keys doc.schemaEntries ↔ ∃ f ∈ fragmentsOf entries, n ∈ f.schemaNames) ∧
      (keys doc.schemaEntries).Nodup) ∧
    (∃ doc, combine "openapi" (.ok disjointAB) = .ok doc ∧
      keys doc.Paths.range = ["/a", "/b"] ∧
      doc.methodsAt "/a" = some ["GET"] ∧ doc.methodsAt "/b" = some ["POST"] ∧
      keys doc.schemaEntries = ["Foo", "Bar"]) := by
  refine ⟨?_, ⟨_, rfl, by decide, by decide, by decide, by decide⟩⟩
  have hnd : (keys (([] : List (String × RawMessage)) ++
      (fragmentsOf entries).flatMap Fragment.schemas)).Nodup := by
    rw [List.nil_append, keys_flatMap_schemas, List.nodup_flatMap]
    exact ⟨fun x hx => (hw x hx).2.2, hs⟩
  obtain ⟨c', hc⟩ := combineFrags_ok_of_nodup dir (fragmentsOf entries)
    { Paths := [], Schemas := [] } hnd
  obtain ⟨doc, hdoc, hdp, hdc⟩ := combine_ok_of_frags dir entries c' hl hc
  have hsch := combineFrags_schemas dir _ _ _ hc (by simp [keys])
  simp only [List.nil_append] at hsch
  refine ⟨doc, hdoc, ?_, ?_, ?_, ?_, ?_⟩
  · intro p
    simp only [hdp, GoMap.range]
    rw [combineFrags_path_keys dir _ _ _ hc p]
    simp [keys]
  · simp only [hdp, GoMap.range]
    exact combineFrags_nodup_paths dir _ _ _ hc (by simp [keys])
  · intro f hf p ms hmem
    obtain ⟨pre, post, hsplit⟩ := List.append_of_mem hf
    have hlast : ∀ g ∈ post, mapGet g.paths p = none := by
      intro g hg
      rw [hsplit] at hp
      have h1 := (List.pairwise_append.1 hp).2.1
      have h2 := (List.pairwise_cons.1 h1).1 g hg
      exact (mapGet_eq_none_iff _ _).2 (h2 p (List.mem_map.2 ⟨(p, ms), hmem, rfl⟩))
    have hget : mapGet f.paths p = some ms := mapGet_of_mem_nodup _ _ _ (hw f hf).1 hmem
    have hpaths := combineFrags_paths dir _ _ _ hc (fun x hx => (hw x hx).1) p
    rw [hsplit, pathSource_of_last p pre post f ms hget hlast] at hpaths
    simp only [APISchema.methodsAt, hdp, GoMap.range, hpaths, Option.map_some',
      Option.some.injEq]
    exact tagMethods_range_keys f.Name ms ((hw f hf).2.1 (p, ms) hmem)
  · intro n
    simp only [APISchema.schemaEntries, hdc, GoMap.range, hsch.1, keys_flatMap_schemas]
    exact List.mem_flatMap
  · simp only [APISchema.schemaEntries, hdc, GoMap.range, hsch.1]
    exact hsch.2

/-- C6, instance: the fragments A and B of the example. -/
theorem combine_disjoint_union_witness :
    ∃ doc, combine "openapi" (.ok disjointAB) = .ok doc ∧
      (∀ p, p ∈ keys doc.Paths.range ↔ ∃ f ∈ fragmentsOf disjointAB, p ∈ f.pathNames) ∧
      (∀ n, n ∈ keys doc.schemaEntries ↔ ∃ f ∈ fragmentsOf disjointAB, n ∈ f.schemaNames) := by
  obtain ⟨doc, h1, h2, _, _, h5, _⟩ :=
    (combine_disjoint_union "openapi" disjointAB (by decide) (by decide) (by decide)
      (by decide)).1
  exact ⟨doc, h1, h2, h5⟩

/-- C7. Two fragments with disjoint schema names that both define the same method of the
same path merge without error, and the merged operation under that path and method is the
one of the fragment processed later: it has that operation's summary, operation identifier,
request body, parameter list and responses, and its tag list is the later file's tag (the
later operation's own tags when the later file name has no dot); it is not the operation of
the fragment processed earlier whenever the two differ in their summary. -/
theorem combine_same_operation_later_wins (dir : String) (entries : List DirEntry)
    (fa fb : Fragment) (hl : Loaded entries = true)
    (hfr : fragmentsOf entries = [fa, fb])
    (hwa : fa.WellFormed) (hwb : fb.WellFormed)
    (hdis : ∀ n ∈ fa.schemaNames, n ∉ fb.schemaNames)
    (p m : String) (opb : APIMethod) (hb : fb.opAt p m = some opb) :
    ∃ doc op, combine dir (.ok entries) = .ok doc ∧
      doc.opAt p m = some op ∧ op = tagOperation fb.Name opb ∧
      op.Summary = opb.Summary ∧ op.OperationId = opb.OperationId ∧
      op.RequestBody = opb.RequestBody ∧ op.Parameters = opb.Parameters ∧
      op.Responses = opb.Responses ∧
      ('.' ∈ fb.Name.data → op.Tags = [beforeDot fb.Name]) ∧
      ('.' ∉ fb.Name.data → op.Tags = opb.Tags) ∧
      (∀ opa, fa.opAt p m = some opa → opa.Summary ≠ opb.Summary →
        op.Summary ≠ opa.Summary) := by
  have hw : ∀ f ∈ fragmentsOf entries, f.WellFormed := by
    intro f hf
    rw [hfr] at hf
    simp only [List.mem_cons, List.mem_singleton, List.not_mem_nil, or_false] at hf
    rcases hf with e | e
    · exact e ▸ hwa
    · exact e ▸ hwb
  have hnd : (keys (([] : List (String × RawMessage)) ++
      (fragmentsOf entries).flatMap Fragment.schemas)).Nodup := by
    rw [List.nil_append, keys_flatMap_schemas, List.nodup_flatMap]
    refine ⟨fun x hx => (hw x hx).2.2, ?_⟩
    rw [hfr]
    simp only [List.pairwise_cons, List.mem_singleton, forall_eq, List.not_mem_nil,
      false_implies, implies_true, List.Pairwise.nil, and_true]
    exact hdis
  obtain ⟨c', hc⟩ := combineFrags_ok_of_nodup dir (fragmentsOf entries)
    { Paths := [], Schemas := [] } hnd
  obtain ⟨doc, hdoc, _, _⟩ := combine_ok_of_frags dir entries c' hl hc
  have hsome : (mapGet fb.paths p).isSome = true := by
    unfold Fragment.opAt at hb
    cases hg : mapGet fb.paths p with
    | none => simp [hg] at hb
    | some v => rfl
  have hop : doc.opAt p m = some (tagOperation fb.Name opb) := by
    rw [combine_opAt dir entries doc hl hw hdoc [fa] [] fb p (by simp [hfr]) hsome (by simp) m,
      hb]
    rfl
  obtain ⟨f1, f2, f3, f4, f5⟩ := tagOperation_frame fb.Name opb
  refine ⟨doc, tagOperation fb.Name opb, hdoc, hop, rfl, f1, f2, f3, f4, f5, ?_, ?_, ?_⟩
  · intro hdot
    rw [tagOperation_of_dot fb.Name opb hdot]
  · intro hdot
    rw [tagOperation_of_no_dot fb.Name opb hdot]
  · intro opa _ hne heq
    exact hne (heq.symm.trans f1)

/-- C7, instance: `a.yaml` and `b.yaml` both define `GET` on `/x`, with the summaries `first`
and `second`; the merged operation has the summary `second`, the responses of `b.yaml` and
the tag `b`. -/
theorem combine_same_operation_later_wins_witness :
    ∃ doc op, combine "openapi" (.ok bothGetX) = .ok doc ∧
      doc.opAt "/x" "GET" = some op ∧
      op.Summary = "second" ∧ op.Summary ≠ "first" ∧ op.OperationId = "" ∧
      op.RequestBody = none ∧ op.Parameters = [] ∧ op.Responses = some (.obj []) ∧
      op.Tags = ["b"] := by
  obtain ⟨doc, op, h1, h2, _, h4, h5, h6, h7, h8, h9, _, h11⟩ :=
    combine_same_operation_later_wins "openapi" bothGetX
      ⟨"a.yaml",
        sampleSchema [("/x", some [("GET", sampleOp "first" [])])] [("Foo", some (.obj []))]⟩
      ⟨"b.yaml",
        sampleSchema [("/x", some [("GET", sampleOp "second" [])])] [("Bar", some (.obj []))]⟩
      (by decide) rfl (by decide) (by decide) (by decide) "/x" "GET" (sampleOp "second" []) rfl
  have htag : beforeDot "b.yaml" = "b" := by decide
  exact ⟨doc, op, h1, h2, h4, h11 (sampleOp "first" []) rfl (by decide), h5, h6, h7, h8,
    by rw [h9 (by decide), htag]⟩

/-- C9. When `combine` succeeds, every operation of the merged document is taken from a
fragment (the last one that defines its path) and has the summary, operation identifier,
request body, parameter list and responses of that fragment's operation under the same path
and method; and every merged component schema body is the body declared by the one fragment
that names it. -/
theorem combine_frame (dir : String) (entries : List DirEntry) (doc : APISchema)
    (hw : ∀ f ∈ fragmentsOf entries, f.WellFormed)
    (h : combine dir (.ok entries) = .ok doc) :
    (∀ p m op, doc.opAt p m = some op →
      ∃ pre f post op0, fragmentsOf entries = pre ++ f :: post ∧
        (∀ g ∈ post, p ∉ g.pathNames) ∧ f.opAt p m = some op0 ∧
        op.Summary = op0.Summary ∧ op.OperationId = op0.OperationId ∧
        op.RequestBody = op0.RequestBody ∧ op.Parameters = op0.Parameters ∧
        op.Responses = op0.Responses) ∧
    (∀ n body, mapGet doc.schemaEntries n = some body →
      ∃ f ∈ fragmentsOf entries, mapGet f.schemas n = some body ∧
        ∀ g ∈ fragmentsOf entries, n ∈ g.schemaNames → g = f) := by
  have hl : Loaded entries = true := loaded_of_combine_ok dir entries doc h
  constructor
  · intro p m op hop
    obtain ⟨pre, f, post, hsplit, hf, hlast⟩ :=
      combine_path_source dir entries doc hl hw h p (opAt_isSome_path doc p m op hop)
    have heq := combine_opAt dir entries doc hl hw h pre post f p hsplit hf hlast m
    rw [hop] at heq
    cases h0 : f.opAt p m with
    | none => simp [h0] at heq
    | some op0 =>
      simp only [h0, Option.map_some', Option.some.injEq] at heq
      subst heq
      obtain ⟨f1, f2, f3, f4, f5⟩ := tagOperation_frame f.Name op0
      exact ⟨pre, f, post, op0, hsplit,
        fun g hg => (mapGet_eq_none_iff _ _).1 (hlast g hg), h0, f1, f2, f3, f4, f5⟩
  · intro n body hget
    obtain ⟨c', hc, _, hdc⟩ := combine_ok_inv dir entries doc hl h
    have hsch := combineFrags_schemas dir _ _ _ hc (by simp [keys])
    simp only [List.nil_append] at hsch
    simp only [APISchema.schemaEntries, hdc, GoMap.range, hsch.1] at hget
    have hmem := mapGet_mem _ _ _ hget
    obtain ⟨f, hf, hin⟩ := List.mem_flatMap.1 hmem
    refine ⟨f, hf, mapGet_of_mem_nodup _ _ _ (hw f hf).2.2 hin, ?_⟩
    intro g hg hn
    by_contra hne
    have hnd := hsch.2
    rw [keys_flatMap_schemas, List.nodup_flatMap] at hnd
    have hsym : Symmetric (Function.onFun List.Disjoint Fragment.schemaNames) :=
      fun a b hab => List.Disjoint.symm hab
    have hd := List.Pairwise.forall hsym hnd.2 hg hf hne
    exact hd hn (List.mem_map.2 ⟨(n, body), hin, rfl⟩)

/-- C9, instance: the merge of the fragments A and B of the disjoint-union example. -/
theorem combine_frame_witness :
    ∃ doc, combine "openapi" (.ok disjointAB) = .ok doc ∧
      ∀ n body, mapGet doc.schemaEntries n = some body →
        ∃ f ∈ fragmentsOf disjointAB, mapGet f.schemas n = some body ∧
          ∀ g ∈ fragmentsOf disjointAB, n ∈ g.schemaNames → g = f :=
  ⟨_, rfl, (combine_frame "openapi" disjointAB _ (by decide) rfl).2⟩

/-! ### The fidelity check -/

theorem checkLoop_cons (dir : String) (e : DirEntry) (rest : List DirEntry) :
    checkLoop dir (e :: rest) =
      match checkEntry dir e with
      | some r => r
      | none => checkLoop dir rest := by
  simp only [checkLoop, checkEntry]
  cases e.IsRegular with
  | false => rfl
  | true =>
    simp only [Bool.not_true, Bool.false_eq_true, if_false]
    cases e.readErr with
    | some x => rfl
    | none =>
      cases e.jsonOriginal with
      | error x => rfl
      | ok j =>
        simp only []
        cases unmarshalObject j with
        | error x => rfl
        | ok original =>
          cases e.schema with
          | error x => rfl
          | ok sch =>
            simp only []
            cases (compareObjects original (marshalAPISchema sch)).isEmpty with
            | true => rfl
            | false => rfl

theorem checkEntry_err (dir : String) (e : DirEntry) (r : CheckResult)
    (h : checkEntry dir e = some r) : r.err ≠ none := by
  unfold checkEntry at h
  split at h
  · cases h
  · split at h
    · cases h; simp
    · split at h
      · cases h; simp
      · split at h
        · cases h; simp
        · split at h
          · cases h; simp
          · split at h
            · cases h; simp
            · cases h

theorem checkLoop_append_pass (dir : String) (pre rest : List DirEntry)
    (h : (checkLoop dir pre).err = none) : checkLoop dir (pre ++ rest) = checkLoop dir rest := by
  induction pre with
  | nil => rfl
  | cons e tl ih =>
    rw [checkLoop_cons] at h
    rw [List.cons_append, checkLoop_cons]
    cases he : checkEntry dir e with
    | some r =>
      rw [he] at h
      exact absurd h (checkEntry_err dir e r he)
    | none =>
      rw [he] at h
      exact ih h

theorem checkLoop_pass_all (dir : String) (entries : List DirEntry)
    (h : (checkLoop dir entries).err = none) : ∀ e ∈ entries, checkEntry dir e = none := by
  induction entries with
  | nil => intro e he; simp at he
  | cons a tl ih =>
    rw [checkLoop_cons] at h
    cases ha : checkEntry dir a with
    | some r =>
      rw [ha] at h
      exact absurd h (checkEntry_err dir a r ha)
    | none =>
      rw [ha] at h
      intro e he
      rcases List.mem_cons.1 he with e1 | e1
      · exact e1 ▸ ha
      · exact ih h e e1

theorem keys_marshalAPISchema (T : APISchema) (k : String)
    (h : k ∈ keys (marshalAPISchema T)) : k ∈ ["openapi", "info", "paths", "components"] := by
  unfold marshalAPISchema at h
  cases hc : T.Components with
  | none => simp [keys, hc] at h; simp; tauto
  | some c => simp [keys, hc] at h; simp; tauto

theorem compareObjects_deleted (l r : List (String × Json)) (k : String) (v : Json)
    (hmem : (k, v) ∈ l) (hk : k ∉ keys r) : Delta.deleted k v ∈ compareObjects l r := by
  have hg : mapGet r k = none := (mapGet_eq_none_iff r k).2 hk
  unfold compareObjects
  refine List.mem_append_left _ (List.mem_filterMap.2 ⟨(k, v), hmem, ?_⟩)
  simp [hg]

theorem checkEntry_undeclared (dir : String) (e : DirEntry) (u : List (String × Json))
    (T : APISchema) (k : String) (hreg : e.IsRegular = true) (hread : e.readErr = none)
    (hu : e.jsonOriginal = .ok (.obj u)) (hT : e.schema = .ok T)
    (hk : k ∈ keys u) (hund : k ∉ ["openapi", "info", "paths", "components"]) :
    checkEntry dir e =
        some { err := some (filepathJoin dir e.Name ++ " schema is not preserved"),
               printed := some (compareObjects u (marshalAPISchema T)) } ∧
      ∃ v, (k, v) ∈ u ∧ Delta.deleted k v ∈ compareObjects u (marshalAPISchema T) := by
  obtain ⟨kv, hmem, hfst⟩ := List.mem_map.1 hk
  obtain ⟨k', v⟩ := kv
  simp only at hfst
  subst hfst
  have hdel := compareObjects_deleted u (marshalAPISchema T) k' v hmem
    (fun hin => hund (keys_marshalAPISchema T k' hin))
  refine ⟨?_, v, hmem, hdel⟩
  have hne : (compareObjects u (marshalAPISchema T)).isEmpty = false := by
    cases hd : compareObjects u (marshalAPISchema T) with
    | nil => rw [hd] at hdel; simp at hdel
    | cons a b => rfl
  simp [checkEntry, hreg, hread, hu, hT, unmarshalObject, hne]

/-! ### What an empty diff says about the original tree -/

theorem compareObjects_nil (l r : List (String × Json)) (h : compareObjects l r = []) :
    (∀ kv ∈ l, ∃ w, mapGet r kv.1 = some w ∧ Json.eqv kv.2 w = true) ∧
      ∀ k ∈ keys r, (mapGet l k).isSome = true := by
  unfold compareObjects at h
  obtain ⟨h1, h2⟩ := List.append_eq_nil.1 h
  constructor
  · intro kv hkv
    have := List.filterMap_eq_nil_iff.1 h1 kv hkv
    cases hg : mapGet r kv.1 with
    | none => simp [hg] at this
    | some w =>
      refine ⟨w, rfl, ?_⟩
      cases he : Json.eqv kv.2 w with
      | true => rfl
      | false => simp [hg, he] at this
  · intro k hk
    obtain ⟨kv, hkv, rfl⟩ := List.mem_map.1 hk
    have := List.filterMap_eq_nil_iff.1 h2 kv hkv
    cases hg : mapGet l kv.1 with
    | none => simp [hg] at this
    | some w => rfl

theorem subObj_iff (l r : List (String × Json)) :
    Json.subObj l r = true ↔
      ∀ kv ∈ l, ∃ w, mapGet r kv.1 = some w ∧ Json.eqv kv.2 w = true := by
  induction l with
  | nil => simp [Json.subObj]
  | cons hd tl ih =>
    obtain ⟨k, v⟩ := hd
    simp only [Json.subObj, Bool.and_eq_true, ih, List.mem_cons, forall_eq_or_imp]
    constructor
    · rintro ⟨h1, h2⟩
      refine ⟨?_, h2⟩
      cases hg : mapGet r k with
      | none => simp [hg] at h1
      | some w => exact ⟨w, rfl, by simpa [hg] using h1⟩
    · rintro ⟨⟨w, hw, he⟩, h2⟩
      exact ⟨by simp [hw, he], h2⟩

theorem eqv_obj_right (j : Json) (r : List (String × Json))
    (h : Json.eqv j (.obj r) = true) :
    ∃ l, j = .obj l ∧ Json.subObj l r = true ∧ ∀ k ∈ keys r, (mapGet l k).isSome = true := by
  cases j with
  | null => simp [Json.eqv] at h
  | bool b => simp [Json.eqv] at h
  | num n => simp [Json.eqv] at h
  | str s => simp [Json.eqv] at h
  | arr xs => simp [Json.eqv] at h
  | obj l =>
    simp only [Json.eqv, Bool.and_eq_true, List.all_eq_true] at h
    exact ⟨l, rfl, h.1, h.2⟩

theorem marshalMethod_keys (o : APIMethod) :
    ∃ fields, marshalMethod o = .obj fields ∧ "summary" ∈ keys fields ∧
      "responses" ∈ keys fields := by
  refine ⟨_, rfl, ?_, ?_⟩ <;> simp [keys]

theorem marshal_values_of_get {V : Type} (g : V → Json) (l : List (String × V)) (k : String)
    (w : Json) (h : mapGet (l.map fun kv => (kv.1, g kv.2)) k = some w) : ∃ x, w = g x := by
  rw [mapGet_map_val] at h
  cases hg : mapGet l k with
  | none => simp [hg] at h
  | some x => exact ⟨x, by simpa [hg] using h.symm⟩

theorem operations_have_keys (ps : List (String × Json)) (T : GoMap APIMethods)
    (h : Json.eqv (.obj ps) (marshalPaths T) = true) (pkv : String × Json) (hp : pkv ∈ ps)
    (ms : List (String × Json)) (hms : pkv.2 = .obj ms) (mkv : String × Json)
    (hm : mkv ∈ ms) :
    mkv.2.hasKey "summary" = true ∧ mkv.2.hasKey "responses" = true := by
  cases T with
  | none => simp [marshalPaths, Json.eqv] at h
  | some l =>
    obtain ⟨_, e1, hsub, _⟩ := eqv_obj_right _ _ h
    cases e1
    obtain ⟨w, hw, he⟩ := (subObj_iff _ _).1 hsub pkv hp
    obtain ⟨x, hx⟩ := marshal_values_of_get marshalMethods l pkv.1 w hw
    subst hx
    rw [hms] at he
    cases x with
    | none => simp [marshalMethods, Json.eqv] at he
    | some l' =>
      obtain ⟨_, e2, hsub2, _⟩ := eqv_obj_right _ _ he
      cases e2
      obtain ⟨w', hw', he'⟩ := (subObj_iff _ _).1 hsub2 mkv hm
      obtain ⟨o, ho⟩ := marshal_values_of_get marshalMethod l' mkv.1 w' hw'
      subst ho
      obtain ⟨fields, hf, hs, hr⟩ := marshalMethod_keys o
      rw [hf] at he'
      obtain ⟨lo, e3, _, hkeys⟩ := eqv_obj_right _ _ he'
      rw [e3]
      exact ⟨hkeys _ hs, hkeys _ hr⟩

theorem hasRequiredKeys_of_nil (u : List (String × Json)) (T : APISchema)
    (h : compareObjects u (marshalAPISchema T) = []) : hasRequiredKeys u = true := by
  obtain ⟨h1, h2⟩ := compareObjects_nil _ _ h
  have ho : (mapGet u "openapi").isSome = true := h2 _ (by simp [marshalAPISchema, keys])
  have hi : (mapGet u "info").isSome = true := h2 _ (by simp [marshalAPISchema, keys])
  have hp : (mapGet u "paths").isSome = true := h2 _ (by simp [marshalAPISchema, keys])
  have hinfo : ∀ i, mapGet u "info" = some i →
      (i.hasKey "title" && i.hasKey "version") = true := by
    intro i hget
    obtain ⟨w, hw, he⟩ := h1 ("info", i) (mapGet_mem _ _ _ hget)
    have hw' : w = marshalInfo T.Info := by
      simp [marshalAPISchema, mapGet] at hw; exact hw.symm
    rw [hw'] at he
    obtain ⟨li, e1, _, hk⟩ := eqv_obj_right _ _ he
    simp only at e1
    rw [e1]
    simp only [Json.hasKey, Bool.and_eq_true]
    exact ⟨hk _ (by simp [keys]), hk _ (by simp [keys])⟩
  have hops : ∀ op ∈ operationsOf u,
      (op.hasKey "summary" && op.hasKey "responses") = true := by
    intro op hop
    unfold operationsOf at hop
    cases hget : mapGet u "paths" with
    | none => simp [hget] at hop
    | some pv =>
      obtain ⟨w, hw, he⟩ := h1 ("paths", pv) (mapGet_mem _ _ _ hget)
      have hw' : w = marshalPaths T.Paths := by
        simp [marshalAPISchema, mapGet] at hw; exact hw.symm
      rw [hw'] at he
      cases pv with
      | obj ps =>
        simp only [hget, List.mem_flatMap] at hop
        obtain ⟨pkv, hpkv, hin⟩ := hop
        cases hv : pkv.2 with
        | obj ms =>
          simp only [hv, List.mem_map] at hin
          obtain ⟨mkv, hmkv, rfl⟩ := hin
          have := operations_have_keys ps T.Paths he pkv hpkv ms hv mkv hmkv
          simp [this.1, this.2]
        | null => simp [hv] at hin
        | bool b => simp [hv] at hin
        | num n => simp [hv] at hin
        | str s => simp [hv] at hin
        | arr xs => simp [hv] at hin
      | null => simp [hget] at hop
      | bool b => simp [hget] at hop
      | num n => simp [hget] at hop
      | str s => simp [hget] at hop
      | arr xs => simp [hget] at hop
  unfold hasRequiredKeys
  cases hget : mapGet u "info" with
  | none => simp [hget] at hi
  | some i =>
    simp only [ho, hp, hinfo i hget, Bool.and_self, Bool.true_and, List.all_eq_true]
    exact hops

theorem checkEntry_pass_inv (dir : String) (e : DirEntry) (hreg : e.IsRegular = true)
    (h : checkEntry dir e = none) :
    ∃ u, e.jsonOriginal = .ok (.obj u) ∧ hasRequiredKeys u = true := by
  unfold checkEntry at h
  simp only [hreg, Bool.not_true, Bool.false_eq_true, if_false] at h
  cases hr : e.readErr with
  | some x => simp [hr] at h
  | none =>
    cases hj : e.jsonOriginal with
    | error x => simp [hr, hj] at h
    | ok j =>
      cases hs : e.schema with
      | error x =>
        cases hu : unmarshalObject j with
        | error y => simp [hr, hj, hu] at h
        | ok original => simp [hr, hj, hs, hu] at h
      | ok T =>
        cases hu : unmarshalObject j with
        | error y => simp [hr, hj, hu] at h
        | ok original =>
          simp only [hr, hj, hs, hu, Bool.not_eq_true', ite_eq_right_iff] at h
          have hnil : compareObjects original (marshalAPISchema T) = [] := by
            cases hd : compareObjects original (marshalAPISchema T) with
            | nil => rfl
            | cons a b => simp [hd] at h
          have hreq := hasRequiredKeys_of_nil original T hnil
          cases j with
          | obj u =>
            simp only [unmarshalObject, Except.ok.injEq] at hu
            subst hu
            exact ⟨u, rfl, hreq⟩
          | null =>
            simp only [unmarshalObject, Except.ok.injEq] at hu
            subst hu
            simp [hasRequiredKeys, mapGet] at hreq
          | bool b => simp [unmarshalObject] at hu
          | num n => simp [unmarshalObject] at hu
          | str s => simp [unmarshalObject] at hu
          | arr xs => simp [unmarshalObject] at hu

/-! ### Claims about `checkParsing` and `main` -/

/-- C2. When the check reaches a fragment (every earlier entry passes) that parses to a typed
model and whose untyped tree has a top-level key other than `openapi`, `info`, `paths` and
`components`, `checkParsing` returns the error that names the fragment's file, the printed
diff reports that key as deleted, the entries after the fragment have no effect on the
result (they are not checked), and `main` stops with that error without calling `combine`
and without writing. -/
theorem checkParsing_undeclared_key (dir : String) (pre post : List DirEntry) (e : DirEntry)
    (u : List (String × Json)) (T : APISchema) (k : String)
    (hpre : (checkParsing dir (.ok pre)).err = none)
    (hreg : e.IsRegular = true) (hread : e.readErr = none)
    (hu : e.jsonOriginal = .ok (.obj u)) (hT : e.schema = .ok T)
    (hk : k ∈ keys u) (hund : k ∉ ["openapi", "info", "paths", "components"]) :
    (checkParsing dir (.ok (pre ++ e :: post))).err =
        some (filepathJoin dir e.Name ++ " schema is not preserved") ∧
    (∃ d v, (checkParsing dir (.ok (pre ++ e :: post))).printed = some d ∧
        (k, v) ∈ u ∧ Delta.deleted k v ∈ d) ∧
    (∀ post', checkParsing dir (.ok (pre ++ e :: post')) =
        checkParsing dir (.ok (pre ++ e :: post))) ∧
    (dir = "openapi" → ∀ ym wf,
      (main { readDir := .ok (pre ++ e :: post), yamlMarshal := ym, writeFile := wf }).panic =
          some (filepathJoin dir e.Name ++ " schema is not preserved") ∧
      (main { readDir := .ok (pre ++ e :: post), yamlMarshal := ym, writeFile := wf }).combined =
          none ∧
      (main { readDir := .ok (pre ++ e :: post), yamlMarshal := ym, writeFile := wf }).writes =
          []) := by
  obtain ⟨hce, v, hmem, hdel⟩ := checkEntry_undeclared dir e u T k hreg hread hu hT hk hund
  have hres : ∀ post', checkParsing dir (.ok (pre ++ e :: post')) =
      { err := some (filepathJoin dir e.Name ++ " schema is not preserved"),
        printed := some (compareObjects u (marshalAPISchema T)) } := by
    intro post'
    simp only [checkParsing] at hpre ⊢
    rw [checkLoop_append_pass dir pre _ hpre, checkLoop_cons, hce]
  refine ⟨by rw [hres post], ⟨_, v, by rw [hres post], hmem, hdel⟩, ?_, ?_⟩
  · intro post'
    rw [hres post', hres post]
  · intro hdir ym wf
    subst hdir
    simp [main, hres post]

/-- C2, instance: a directory whose second file has the undeclared key `x-extra` next to
`paths`; the first file passes. -/
theorem checkParsing_undeclared_key_witness :
    (checkParsing "openapi" (.ok [noComponents, extraKey, noComponents])).err =
        some "openapi/extra.yaml schema is not preserved" ∧
      (∃ d v, (checkParsing "openapi" (.ok [noComponents, extraKey, noComponents])).printed =
          some d ∧ Delta.deleted "x-extra" v ∈ d) := by
  obtain ⟨h1, ⟨d, v, h2, _, h3⟩, _, _⟩ :=
    checkParsing_undeclared_key "openapi" [noComponents] [noComponents] extraKey
      [("openapi", .str "3.0.1"), ("info", .obj [("title", .str "t"), ("version", .str "v")]),
       ("paths", .obj []), ("x-extra", .num 1)]
      { Openapi := "3.0.1", Info := { Title := "t", Version := "v" },
        Paths := some [], Components := none }
      "x-extra" (by decide) rfl rfl rfl rfl (by decide) (by decide)
  exact ⟨h1, d, v, h2, h3⟩

/-- C8. A run writes the output only after `checkParsing` returned no error and `combine`
then returned a document, and what it hands to `os.WriteFile` is the serialisation of that
document under the fixed name; when the fidelity check fails, or when `combine` fails, the
run ends with a panic and `os.WriteFile` is never called. -/
theorem main_writes_only_after_both_pass (w : World) :
    ((main w).writes ≠ [] →
      (checkParsing "openapi" w.readDir).err = none ∧
      ∃ doc data, combine "openapi" w.readDir = .ok doc ∧ w.yamlMarshal doc = .ok data ∧
        (main w).writes = [("api.yaml", data)]) ∧
    (∀ err, (checkParsing "openapi" w.readDir).err = some err →
      (main w).panic = some err ∧ (main w).combined = none ∧ (main w).writes = []) ∧
    (∀ err, combine "openapi" w.readDir = .error err →
      (main w).panic ≠ none ∧ (main w).writes = []) ∧
    (∀ err, (checkParsing "openapi" w.readDir).err = none →
      combine "openapi" w.readDir = .error err →
      (main w).panic = some err ∧ (main w).writes = []) := by
  refine ⟨?_, ?_, ?_, ?_⟩
  · intro hw
    cases hc : (checkParsing "openapi" w.readDir).err with
    | some err => simp [main, hc] at hw
    | none =>
      cases hm : combine "openapi" w.readDir with
      | error err => simp [main, hc, hm] at hw
      | ok doc =>
        cases hy : w.yamlMarshal doc with
        | error err => simp [main, hc, hm, hy] at hw
        | ok data =>
          refine ⟨rfl, doc, data, rfl, hy, ?_⟩
          cases hwf : w.writeFile "api.yaml" data with
          | some err => simp [main, hc, hm, hy, hwf]
          | none => simp [main, hc, hm, hy, hwf]
  · intro err hc
    simp [main, hc]
  · intro err hm
    cases hc : (checkParsing "openapi" w.readDir).err with
    | some e => simp [main, hc]
    | none => simp [main, hc, hm]
  · intro err hc hm
    simp [main, hc, hm]

/-- C8, instances: a directory that passes both stages is written; one with an undeclared key
and one with a duplicate schema name are not. -/
theorem main_writes_only_after_both_pass_witness :
    (main (sampleWorld disjointAB)).writes = [("api.yaml", "merged")] ∧
      (main (sampleWorld [extraKey])).writes = [] ∧
      (main (sampleWorld duplicateX)).writes = [] ∧
      (main (sampleWorld duplicateX)).panic =
        some "duplicate message X in file openapi/b.yaml" :=
  ⟨by decide, by decide,
    ((main_writes_only_after_both_pass (sampleWorld duplicateX)).2.2.1
      "duplicate message X in file openapi/b.yaml" rfl).2,
    ((main_writes_only_after_both_pass (sampleWorld duplicateX)).2.2.2
      "duplicate message X in file openapi/b.yaml" (by decide) rfl).1⟩

/-- C10. Every fragment of a directory that `checkParsing` accepts has, in its untyped tree,
the top-level keys `openapi`, `info` (with `title` and `version`) and `paths`, and the keys
`summary` and `responses` in every operation, because the serialised typed model always
carries them; so `checkParsing` returns an error whenever a fragment omits one of them, while
the fragment `plain.yaml`, which has no `components` key, passes. -/
theorem checkParsing_required_keys (dir : String) (entries : List DirEntry) :
    ((checkParsing dir (.ok entries)).err = none →
      ∀ e ∈ entries, e.IsRegular = true →
        ∃ u, e.jsonOriginal = .ok (.obj u) ∧ hasRequiredKeys u = true) ∧
    (∀ e ∈ entries, e.IsRegular = true →
      ∀ u, e.jsonOriginal = .ok (.obj u) → hasRequiredKeys u = false →
        (checkParsing dir (.ok entries)).err ≠ none) ∧
    ((checkParsing dir (.ok [noComponents])).err = none ∧
      ∃ u, noComponents.jsonOriginal = .ok (.obj u) ∧ "components" ∉ keys u ∧
        hasRequiredKeys u = true) ∧
    (∀ (u : List (String × Json)) (T : APISchema), "components" ∉ keys u →
      T.Components = none →
      ∀ d ∈ compareObjects u (marshalAPISchema T), d.key ≠ "components") := by
  have hpass : (checkParsing dir (.ok entries)).err = none →
      ∀ e ∈ entries, e.IsRegular = true →
        ∃ u, e.jsonOriginal = .ok (.obj u) ∧ hasRequiredKeys u = true := by
    intro h e he hreg
    exact checkEntry_pass_inv dir e hreg (checkLoop_pass_all dir entries h e he)
  refine ⟨hpass, ?_, ⟨?_, ?_⟩, ?_⟩
  · intro e he hreg u hu hfalse hnone
    obtain ⟨u', hu', hreq⟩ := hpass hnone e he hreg
    rw [hu] at hu'
    cases hu'
    rw [hreq] at hfalse
    cases hfalse
  · have hent : checkEntry dir noComponents = none := by
      simp only [checkEntry, noComponents, unmarshalObject, Bool.not_true, Bool.false_eq_true,
        if_false]
      have hd : (compareObjects
          [("paths", Json.obj [("/a", Json.obj [("get",
              Json.obj [("responses", Json.obj []), ("summary", Json.str "s")])])]),
           ("info", Json.obj [("version", Json.str "v"), ("title", Json.str "t")]),
           ("openapi", Json.str "3.0.1")]
          (marshalAPISchema
            { Openapi := "3.0.1", Info := { Title := "t", Version := "v" },
              Paths := some [("/a", some [("get", sampleOp "s" [])])],
              Components := none })).isEmpty = true := by decide
      simp [hd]
    simp only [checkParsing]
    rw [checkLoop_cons, hent]
    rfl
  · exact ⟨_, rfl, by decide, by decide⟩
  · intro u T hu hT d hd
    unfold compareObjects at hd
    rcases List.mem_append.1 hd with h1 | h1
    · obtain ⟨kv, hkv, hsome⟩ := List.mem_filterMap.1 h1
      have hkey : d.key = kv.1 := by
        cases hg : mapGet (marshalAPISchema T) kv.1 with
        | none =>
          simp only [hg, Option.some.injEq] at hsome
          rw [← hsome]; rfl
        | some w =>
          cases he : Json.eqv kv.2 w with
          | true => simp [hg, he] at hsome
          | false =>
            simp only [hg, he, Bool.false_eq_true, if_false, Option.some.injEq] at hsome
            rw [← hsome]; rfl
      rw [hkey]
      intro hbad
      exact hu (List.mem_map.2 ⟨kv, hkv, hbad⟩)
    · obtain ⟨kv, hkv, hsome⟩ := List.mem_filterMap.1 h1
      have hkey : d.key = kv.1 := by
        cases hg : mapGet u kv.1 with
        | none =>
          simp only [hg, Option.some.injEq] at hsome
          rw [← hsome]; rfl
        | some w => simp [hg] at hsome
      rw [hkey]
      simp only [marshalAPISchema, hT, List.append_nil, List.mem_cons, List.not_mem_nil,
        or_false] at hkv
      rcases hkv with e | e | e <;> rw [e] <;> simp

/-- C10, instance: a directory holding a fragment whose operation omits `summary` is
rejected. -/
theorem checkParsing_required_keys_witness :
    (checkParsing "openapi" (.ok [noComponents, missingSummary])).err ≠ none :=
  (checkParsing_required_keys "openapi" [noComponents, missingSummary]).2.1 missingSummary
    (by simp) rfl _ rfl (by decide)

end JamesOpenapi
